import Mathlib

/-!
# Ptrie: a prefix trie with frequency counts and best-completion lookup

A shallow embedding of `src/Ptrie.c` and the proofs of its specification.

Modelling conventions.

* A C string is the list of its characters before the terminating NUL. A character is a
  byte (`CChar = Fin 256`); the target reads `char` as a signed 8-bit value (`charVal`).
* `ptrie_node` is the type of the values of `struct ptrie_node *`: `NULL`, or a node with
  its 128 child pointers, its `count` and its `isEndOfWord` flag. Ownership is a tree, so
  the heap is not modelled apart.
* An operation returns `none` when the C code would leave defined behaviour: a `NULL`
  pointer dereferenced, an array indexed outside its bounds, a write past the end of one
  of the `char[128]` buffers of the lookup or of the 256 bytes of the print buffer.
* The allocator never fails (`malloc`, `strdup`); the `NULL` tests that follow an
  allocation are kept where the source has them. `pt` and `str` are never `NULL`.
* `count` and `freq` are C `int`s of 32 bits. The increment `count++` wraps from
  `2147483647` to `-2147483648`, as the target computes it (`int32`).
-/

namespace Ptrie

/-! ## Data model -/

/-- A byte of a C string. -/
abbrev CChar := Fin 256

/-- The value of a `char` holding the byte `c`, `char` being signed and 8 bits wide. -/
def charVal (c : CChar) : Int :=
  if c.val < 128 then (c.val : Int) else (c.val : Int) - 256

/-- The values of `struct ptrie_node *`. -/
inductive ptrie_node where
  | NULL : ptrie_node
  | node (children : Fin 128 → ptrie_node) (count : Int) (isEndOfWord : Int) : ptrie_node

/-- The test `p == NULL`. -/
def ptrie_node.isNull : ptrie_node → Bool
  | .NULL => true
  | .node _ _ _ => false

/-- The value of a C `int` that holds the result `x` of an operation: `x` reduced to the
32-bit two's complement range, as the target does on overflow. -/
def int32 (x : Int) : Int :=
  (x + 2147483648) % 4294967296 - 2147483648

/-- The value of a counter that held `c` after `k` executions of `count++`. -/
def countAfter (c : Int) (k : Nat) : Int :=
  if k = 0 then c else int32 (c + k)

/-- The struct `ptrie`: its root pointer. -/
structure ptrie where
  root : ptrie_node

/-- A new node: count 0, flag clear, every child `NULL` (`malloc` succeeding). -/
def ptrie_createNode : ptrie_node :=
  .node (fun _ => .NULL) 0 0

/-- The cast `(int) c`. -/
def ptrie_char2off (c : CChar) : Int :=
  charVal c

/-- The validity test: 0 when `c < 32`, 1 otherwise. -/
def ptrie_isValidChar (c : CChar) : Int :=
  if charVal c < 32 then 0 else 1

/-- A new trie: a root node without children (`malloc` succeeding). -/
def ptrie_allocate : ptrie :=
  ⟨ptrie_createNode⟩

/-- The slot of `children[index]`, when `index` is within the 128 slots of the array. -/
def childSlot (index : Int) : Option (Fin 128) :=
  if h : 0 ≤ index ∧ index < 128 then some ⟨index.toNat, by omega⟩ else none

/-! ## Insertion -/

/-- The loop of `ptrie_add` from the node `current` on, and the final update of the node
reached: the value returned and the subtree that `current` points to afterwards. -/
def ptrie_add_loop : ptrie_node → List CChar → Option (Int × ptrie_node)
  | .NULL, [] => none
  | .node children count isEndOfWord, [] =>
      some (0, .node children (int32 (count + 1)) (if isEndOfWord = 0 then 1 else isEndOfWord))
  | current, c :: rest =>
      if ptrie_isValidChar c = 0 then some (-1, current)
      else
        match current, childSlot (ptrie_char2off c) with
        | .NULL, _ => none
        | .node _ _ _, none => none
        | .node children count isEndOfWord, some index =>
            let child := if (children index).isNull then ptrie_createNode else children index
            if child.isNull then
              some (-1, .node (Function.update children index child) count isEndOfWord)
            else
              (ptrie_add_loop child rest).map fun r =>
                (r.1, .node (Function.update children index r.2) count isEndOfWord)

/-- The function `ptrie_add`: the value returned and the trie afterwards. -/
def ptrie_add (pt : ptrie) (str : List CChar) : Option (Int × ptrie) :=
  (ptrie_add_loop pt.root str).map fun r => (r.1, ⟨r.2⟩)

/-- A sequence of `ptrie_add` calls: the values returned, in order, and the final trie. -/
def ptrie_add_all : ptrie → List (List CChar) → Option (List Int × ptrie)
  | pt, [] => some ([], pt)
  | pt, str :: calls =>
      (ptrie_add pt str).bind fun r =>
        (ptrie_add_all r.2 calls).map fun q => (r.1 :: q.1, q.2)

/-! ## Best-completion lookup -/

/-- The pair `(*result, *freq)` of `ptrie_autocompleteHelper`; `none` is `NULL`. -/
abbrev BestSoFar := Option (List CChar) × Int

/-- The string in `nextPrefix` after `nextPrefix[prefixLen] = (char) i` and
`nextPrefix[prefixLen + 1] = 0` (a NUL written at `prefixLen` ends the string there). -/
def nextPrefix (pfx : List CChar) (i : Fin 128) : List CChar :=
  if i.val = 0 then pfx else pfx ++ [⟨i.val, by omega⟩]

/-- The function `ptrie_autocompleteHelper`: `(*result, *freq)` afterwards, or `none` when
a write falls outside `char nextPrefix[128]`. -/
def ptrie_autocompleteHelper : ptrie_node → List CChar → BestSoFar → Option BestSoFar
  | .NULL, _, best => some best
  | .node children count isEndOfWord, pfx, best =>
      let best1 : BestSoFar :=
        if isEndOfWord ≠ 0 ∧ count > best.2 then (some pfx, count) else best
      (List.finRange 128).foldl
        (fun acc i => acc.bind fun b =>
          if (children i).isNull then some b
          else if pfx.length + 1 < 128 then
            ptrie_autocompleteHelper (children i) (nextPrefix pfx i) b
          else none)
        (some best1)

/-- How the first loop of `ptrie_autocomplete` ends. -/
inductive WalkEnd where
  | invalid : WalkEnd
  | missing : WalkEnd
  | reached (current : ptrie_node) : WalkEnd

/-- The first loop of `ptrie_autocomplete`, from the node `current` on. -/
def ptrie_autocomplete_walk : ptrie_node → List CChar → Option WalkEnd
  | current, [] => some (.reached current)
  | current, c :: rest =>
      if ptrie_isValidChar c = 0 then some .invalid
      else
        match current, childSlot (ptrie_char2off c) with
        | .NULL, _ => none
        | .node _ _ _, none => none
        | .node children _ _, some index =>
            if (children index).isNull then some .missing
            else ptrie_autocomplete_walk (children index) rest
termination_by structural _ str => str

/-- The function `ptrie_autocomplete`: `some none` is the `NULL` returned for an invalid
character, `none` a write outside `char prefix[128]` or `char nextPrefix[128]`. -/
def ptrie_autocomplete (pt : ptrie) (str : List CChar) : Option (Option (List CChar)) :=
  match ptrie_autocomplete_walk pt.root str with
  | none => none
  | some .invalid => some none
  | some .missing => some (some str)
  | some (.reached current) =>
      if str.length + 1 ≤ 128 then
        match ptrie_autocompleteHelper current str (none, -1) with
        | none => none
        | some (none, _) => some (some str)
        | some (some result, _) => some (some result)
      else none

/-! ## Observations -/

/-- The child pointer `n->children[(int) c]`; `NULL` when there is no such slot. -/
def childAt (n : ptrie_node) (c : CChar) : ptrie_node :=
  match n, childSlot (ptrie_char2off c) with
  | .node children _ _, some index => children index
  | _, _ => .NULL

/-- The node reached from `n` by the path that spells `w`; `NULL` when the path is absent. -/
def ptrie_find : ptrie_node → List CChar → ptrie_node
  | n, [] => n
  | n, c :: w => ptrie_find (childAt n c) w

/-- The field `count` of a node (0 for an absent node). -/
def nodeCount : ptrie_node → Int
  | .NULL => 0
  | .node _ count _ => count

/-- The field `isEndOfWord` of a node (0 for an absent node). -/
def nodeFlag : ptrie_node → Int
  | .NULL => 0
  | .node _ _ isEndOfWord => isEndOfWord

/-- A character of the accepted range, 32 to 127. -/
def accepted (c : CChar) : Prop :=
  32 ≤ c.val ∧ c.val ≤ 127

instance (c : CChar) : Decidable (accepted c) :=
  inferInstanceAs (Decidable (32 ≤ c.val ∧ c.val ≤ 127))

/-- A key whose characters are all of the accepted range. -/
def acceptedKey (key : List CChar) : Prop :=
  ∀ c ∈ key, accepted c

instance (key : List CChar) : Decidable (acceptedKey key) :=
  inferInstanceAs (Decidable (∀ c ∈ key, accepted c))

/-- The node that the loop of `ptrie_add` moves to through the child pointer `n`: the
node `n` points to, or a new one when `n` is `NULL`. -/
def childOrNew (n : ptrie_node) : ptrie_node :=
  if n.isNull then ptrie_createNode else n

/-- The characters of `key` that come before its first character outside the accepted range. -/
def acceptedPrefix (key : List CChar) : List CChar :=
  key.takeWhile fun c => decide (accepted c)

/-- The character `(char) i` of a child slot. -/
def slotChar (i : Fin 128) : CChar :=
  ⟨i.val, by omega⟩

/-- The terminal nodes under `n`, in the order in which `ptrie_autocompleteHelper` meets
them (a node before its children, the children by ascending slot), each with the string
held in `prefix` when it is met and with its count. -/
def completions : ptrie_node → List CChar → List (List CChar × Int)
  | .NULL, _ => []
  | .node children count isEndOfWord, pfx =>
      (if isEndOfWord ≠ 0 then [(pfx, count)] else []) ++
        (List.finRange 128).flatMap fun i => completions (children i) (nextPrefix pfx i)

/-- The update of `(*result, *freq)` at a terminal node: it is replaced when the count of
the node is greater than `*freq`. -/
def pickBest (best : BestSoFar) (e : List CChar × Int) : BestSoFar :=
  if e.2 > best.2 then (some e.1, e.2) else best

/-- The height of the tree under `n`: the length of the longest path from `n` down to a
node (0 for `NULL` and for a node without children). -/
def ptrie_node.height : ptrie_node → Nat
  | .NULL => 0
  | .node children _ _ =>
      (List.finRange 128).foldl
        (fun m i => max m (if (children i).isNull then 0 else (children i).height + 1)) 0

/-- The number of nodes of the tree under `n`. -/
def ptrie_node.size : ptrie_node → Nat
  | .NULL => 0
  | .node children _ _ => 1 + ((List.finRange 128).map fun i => (children i).size).sum

/-- The length of the longest key of a sequence of calls (0 for no call). -/
def longestKey (calls : List (List CChar)) : Nat :=
  (calls.map List.length).foldr max 0

/-- The function `ptrie_autocompleteHelper` run with a buffer `nextPrefix` that no string
outgrows. -/
def ptrie_autocompleteHelper_unbounded : ptrie_node → List CChar → BestSoFar → BestSoFar
  | .NULL, _, best => best
  | .node children count isEndOfWord, pfx, best =>
      let best1 : BestSoFar :=
        if isEndOfWord ≠ 0 ∧ count > best.2 then (some pfx, count) else best
      (List.finRange 128).foldl
        (fun b i =>
          if (children i).isNull then b
          else ptrie_autocompleteHelper_unbounded (children i) (nextPrefix pfx i) b)
        best1

/-- The function `ptrie_autocomplete` run with buffers `prefix` and `nextPrefix` that no
string outgrows. -/
def ptrie_autocomplete_unbounded (pt : ptrie) (str : List CChar) :
    Option (Option (List CChar)) :=
  match ptrie_autocomplete_walk pt.root str with
  | none => none
  | some .invalid => some none
  | some .missing => some (some str)
  | some (.reached current) =>
      match ptrie_autocompleteHelper_unbounded current str (none, -1) with
      | (none, _) => some (some str)
      | (some result, _) => some (some result)

/-- The indices of `nextPrefix` that `ptrie_autocompleteHelper` writes: for each child,
`strcpy` writes 0 to `prefixLen`, then the two assignments write `prefixLen` and
`prefixLen + 1`; then come the writes of the recursive call. -/
def ptrie_autocompleteHelper_writes : ptrie_node → List CChar → List Nat
  | .NULL, _ => []
  | .node children _ _, pfx =>
      (List.finRange 128).flatMap fun i =>
        if (children i).isNull then []
        else
          List.range (pfx.length + 1) ++ [pfx.length, pfx.length + 1] ++
            ptrie_autocompleteHelper_writes (children i) (nextPrefix pfx i)

/-- The indices of `prefix` and `nextPrefix` that `ptrie_autocomplete` writes once the
first loop has reached a node: `memset` writes 0 to 127 into `prefix`, `strcpy` writes 0
to `len`; then come the writes of the helper. -/
def ptrie_autocomplete_writes (pt : ptrie) (str : List CChar) : List Nat :=
  match ptrie_autocomplete_walk pt.root str with
  | some (.reached current) =>
      List.range 128 ++ List.range (str.length + 1) ++
        ptrie_autocompleteHelper_writes current str
  | _ => []

/-- The string that `%s` reads in `buffer` once `buffer[level] = 0` is written, `bytes`
being the bytes at the indices below `level`: the bytes before the first NUL. -/
def cString (bytes : List CChar) : List CChar :=
  bytes.takeWhile fun c => decide (c ≠ 0)

/-- The function `ptrie_printHelper`, `buffer` being the bytes written at the indices below
`level`: the entries printed, in order, each with its string and its count; `none` when
`node` is `NULL` or when a write falls outside the 256 bytes of the buffer. -/
def ptrie_printHelper : ptrie_node → List CChar → Option (List (List CChar × Int))
  | .NULL, _ => none
  | .node children count isEndOfWord, buffer =>
      let first : Option (List (List CChar × Int)) :=
        if isEndOfWord ≠ 0 then
          if buffer.length < 256 then some [(cString buffer, count)] else none
        else some []
      (List.finRange 128).foldl
        (fun acc i => acc.bind fun out =>
          if (children i).isNull then some out
          else if buffer.length < 256 then
            (ptrie_printHelper (children i) (buffer ++ [slotChar i])).map fun more =>
              out ++ more
          else none)
        first

/-- The function `ptrie_print` (`malloc` succeeding): the entries printed, in order. -/
def ptrie_print (pt : ptrie) : Option (List (List CChar × Int)) :=
  ptrie_printHelper pt.root []

/-- The entries that `ptrie_printHelper` prints with a buffer that no path outgrows. -/
def printEntries : ptrie_node → List CChar → List (List CChar × Int)
  | .NULL, _ => []
  | .node children count isEndOfWord, buffer =>
      (if isEndOfWord ≠ 0 then [(cString buffer, count)] else []) ++
        (List.finRange 128).flatMap fun i => printEntries (children i) (buffer ++ [slotChar i])

/-! ## Characters and slots -/

theorem isValidChar_eq_zero_iff (c : CChar) : ptrie_isValidChar c = 0 ↔ ¬ accepted c := by
  have := c.isLt
  unfold ptrie_isValidChar charVal accepted
  split_ifs <;> omega

theorem isValidChar_of_accepted {c : CChar} (h : accepted c) : ¬ ptrie_isValidChar c = 0 := by
  rw [isValidChar_eq_zero_iff]; exact not_not.mpr h

theorem childSlot_of_lt (c : CChar) (h : c.val < 128) :
    childSlot (ptrie_char2off c) = some ⟨c.val, h⟩ := by
  unfold childSlot ptrie_char2off charVal
  simp [h]

theorem childSlot_of_accepted {c : CChar} (h : accepted c) :
    childSlot (ptrie_char2off c) = some ⟨c.val, by unfold accepted at h; omega⟩ :=
  childSlot_of_lt c _

theorem childSlot_of_ge (c : CChar) (h : 128 ≤ c.val) :
    childSlot (ptrie_char2off c) = none := by
  have := c.isLt
  unfold childSlot ptrie_char2off charVal
  rw [if_neg (by omega), dif_neg (by omega)]

theorem childAt_NULL (c : CChar) : childAt .NULL c = .NULL := by
  unfold childAt; rfl

theorem ptrie_find_NULL (w : List CChar) : ptrie_find .NULL w = .NULL := by
  induction w with
  | nil => rfl
  | cons c w ih => simp [ptrie_find, childAt_NULL, ih]

theorem childAt_createNode (c : CChar) : childAt ptrie_createNode c = .NULL := by
  unfold childAt ptrie_createNode
  cases childSlot (ptrie_char2off c) <;> rfl

theorem ptrie_find_createNode_cons (c : CChar) (w : List CChar) :
    ptrie_find ptrie_createNode (c :: w) = .NULL := by
  simp [ptrie_find, childAt_createNode, ptrie_find_NULL]

/-! ## One step of the insertion loop -/

theorem int32_of_range (x : Int) (h : -2147483648 ≤ x ∧ x < 2147483648) : int32 x = x := by
  unfold int32; omega

theorem int32_range (x : Int) : -2147483648 ≤ int32 x ∧ int32 x < 2147483648 := by
  unfold int32; omega

theorem int32_int32_add (a b : Int) : int32 (int32 a + b) = int32 (a + b) := by
  unfold int32; omega

theorem countAfter_zero (c : Int) : countAfter c 0 = c := by
  simp [countAfter]

theorem countAfter_succ (c : Int) (k : Nat) :
    countAfter (int32 (c + 1)) k = countAfter c (k + 1) := by
  unfold countAfter
  by_cases hk : k = 0
  · subst hk; simp
  · rw [if_neg hk, if_neg (Nat.succ_ne_zero k), int32_int32_add]
    congr 1; push_cast; ring

theorem countAfter_start (k : Nat) : countAfter 0 k = int32 k := by
  unfold countAfter
  by_cases hk : k = 0
  · subst hk; rw [if_pos rfl]; unfold int32; omega
  · rw [if_neg hk, zero_add]

theorem add_loop_nil_node (children : Fin 128 → ptrie_node) (count isEndOfWord : Int) :
    ptrie_add_loop (.node children count isEndOfWord) [] =
      some (0, .node children (int32 (count + 1))
        (if isEndOfWord = 0 then 1 else isEndOfWord)) :=
  rfl

theorem add_loop_cons (current : ptrie_node) (c : CChar) (rest : List CChar) :
    ptrie_add_loop current (c :: rest) =
      if ptrie_isValidChar c = 0 then some (-1, current)
      else
        match current, childSlot (ptrie_char2off c) with
        | .NULL, _ => none
        | .node _ _ _, none => none
        | .node children count isEndOfWord, some index =>
            if (if (children index).isNull then ptrie_createNode else children index).isNull then
              some (-1, .node (Function.update children index
                (if (children index).isNull then ptrie_createNode else children index))
                count isEndOfWord)
            else
              (ptrie_add_loop
                (if (children index).isNull then ptrie_createNode else children index) rest).map
                fun r => (r.1, .node (Function.update children index r.2) count isEndOfWord) := by
  cases current <;> rfl

theorem add_loop_cons_rejected (n : ptrie_node) {c : CChar} (rest : List CChar)
    (h : ¬ accepted c) : ptrie_add_loop n (c :: rest) = some (-1, n) := by
  rw [add_loop_cons, if_pos ((isValidChar_eq_zero_iff c).mpr h)]

theorem add_loop_cons_accepted (children : Fin 128 → ptrie_node) (count isEndOfWord : Int)
    {c : CChar} (rest : List CChar) (h : accepted c) :
    ptrie_add_loop (.node children count isEndOfWord) (c :: rest) =
      (ptrie_add_loop (childOrNew (children ⟨c.val, by unfold accepted at h; omega⟩)) rest).map
        fun r => (r.1, .node (Function.update children ⟨c.val, by unfold accepted at h; omega⟩ r.2)
          count isEndOfWord) := by
  have hv := isValidChar_of_accepted h
  have hs := childSlot_of_accepted h
  rw [add_loop_cons, if_neg hv]
  simp only [hs, childOrNew]
  have hc : ptrie_createNode.isNull = false := rfl
  by_cases hn : (children ⟨c.val, by unfold accepted at h; omega⟩).isNull = true
  · simp only [hn, if_true, hc, Bool.false_eq_true, if_false]
  · simp only [hn, Bool.false_eq_true, if_false]

/-! ## What an insertion changes, path by path -/

theorem childOrNew_ne_NULL (n : ptrie_node) : childOrNew n ≠ .NULL := by
  cases n <;> simp [childOrNew, ptrie_node.isNull, ptrie_createNode]

theorem childOrNew_find_count (n : ptrie_node) (w : List CChar) :
    nodeCount (ptrie_find (childOrNew n) w) = nodeCount (ptrie_find n w) := by
  cases n with
  | node children count isEndOfWord => simp [childOrNew, ptrie_node.isNull]
  | NULL =>
    cases w with
    | nil => simp [childOrNew, ptrie_node.isNull, ptrie_find, ptrie_createNode, nodeCount]
    | cons c w =>
      simp [childOrNew, ptrie_node.isNull, ptrie_find_createNode_cons, ptrie_find_NULL]

theorem childOrNew_find_flag (n : ptrie_node) (w : List CChar) :
    nodeFlag (ptrie_find (childOrNew n) w) = nodeFlag (ptrie_find n w) := by
  cases n with
  | node children count isEndOfWord => simp [childOrNew, ptrie_node.isNull]
  | NULL =>
    cases w with
    | nil => simp [childOrNew, ptrie_node.isNull, ptrie_find, ptrie_createNode, nodeFlag]
    | cons c w =>
      simp [childOrNew, ptrie_node.isNull, ptrie_find_createNode_cons, ptrie_find_NULL]

theorem childOrNew_find_NULL (n : ptrie_node) (w : List CChar) :
    ptrie_find (childOrNew n) w = .NULL ↔ ptrie_find n w = .NULL ∧ w ≠ [] := by
  cases n with
  | node children count isEndOfWord =>
    cases w with
    | nil => simp [childOrNew, ptrie_node.isNull, ptrie_find]
    | cons c w => simp [childOrNew, ptrie_node.isNull]
  | NULL =>
    cases w with
    | nil => simp [childOrNew, ptrie_node.isNull, ptrie_find, ptrie_createNode]
    | cons c w =>
      simp [childOrNew, ptrie_node.isNull, ptrie_find_createNode_cons, ptrie_find_NULL]

theorem childAt_update (children : Fin 128 → ptrie_node) (count isEndOfWord : Int)
    (c : CChar) (hc : c.val < 128) (m : ptrie_node) (d : CChar) :
    childAt (.node (Function.update children ⟨c.val, hc⟩ m) count isEndOfWord) d =
      if d = c then m else childAt (.node children count isEndOfWord) d := by
  by_cases hd : d.val < 128
  · simp only [childAt, childSlot_of_lt d hd]
    by_cases hdc : d = c
    · subst hdc; simp
    · have : (⟨d.val, hd⟩ : Fin 128) ≠ ⟨c.val, hc⟩ := by
        intro h; apply hdc; ext; simpa using congrArg Fin.val h
      simp [Function.update_noteq this, hdc]
  · have hne : d ≠ c := by intro h; subst h; exact hd hc
    simp [childAt, childSlot_of_ge d (by omega), hne]

theorem childAt_fields (children : Fin 128 → ptrie_node) (c1 e1 c2 e2 : Int) (d : CChar) :
    childAt (.node children c1 e1) d = childAt (.node children c2 e2) d := by
  unfold childAt
  cases childSlot (ptrie_char2off d) <;> rfl

theorem childAt_node_accepted (children : Fin 128 → ptrie_node) (count isEndOfWord : Int)
    (c : CChar) (hc : c.val < 128) :
    childAt (.node children count isEndOfWord) c = children ⟨c.val, hc⟩ := by
  simp [childAt, childSlot_of_lt c hc]

theorem acceptedPrefix_cons_accepted {c : CChar} (rest : List CChar) (h : accepted c) :
    acceptedPrefix (c :: rest) = c :: acceptedPrefix rest := by
  simp [acceptedPrefix, List.takeWhile, h]

theorem acceptedPrefix_cons_rejected {c : CChar} (rest : List CChar) (h : ¬ accepted c) :
    acceptedPrefix (c :: rest) = [] := by
  simp [acceptedPrefix, List.takeWhile, h]

/-- What `ptrie_add` does from a node on: it returns 0 when every character is accepted
and -1 otherwise; the paths afterwards are the paths before and the accepted characters
walked; only the node of an inserted key has its count and its flag changed. -/
theorem add_loop_spec (key : List CChar) : ∀ n : ptrie_node, n ≠ .NULL →
    ∃ n', ptrie_add_loop n key = some (if acceptedKey key then 0 else -1, n') ∧ n' ≠ .NULL ∧
      (∀ w, ptrie_find n' w = .NULL ↔
        (ptrie_find n w = .NULL ∧ ¬ w <+: acceptedPrefix key)) ∧
      (∀ w, nodeCount (ptrie_find n' w) =
        if w = key ∧ acceptedKey key then int32 (nodeCount (ptrie_find n w) + 1)
        else nodeCount (ptrie_find n w)) ∧
      (∀ w, nodeFlag (ptrie_find n' w) =
        if w = key ∧ acceptedKey key then
          (if nodeFlag (ptrie_find n w) = 0 then 1 else nodeFlag (ptrie_find n w))
        else nodeFlag (ptrie_find n w)) := by
  induction key with
  | nil =>
    intro n hn
    cases n with
    | NULL => exact absurd rfl hn
    | node children count isEndOfWord =>
      refine ⟨.node children (int32 (count + 1)) (if isEndOfWord = 0 then 1 else isEndOfWord),
        ?_, ?_, ?_, ?_, ?_⟩
      · simp [add_loop_nil_node, acceptedKey]
      · simp
      · intro w
        cases w with
        | nil => simp [ptrie_find]
        | cons d w =>
          simp [ptrie_find, childAt_fields children _ _ count isEndOfWord, acceptedPrefix]
      · intro w
        cases w with
        | nil => simp [ptrie_find, nodeCount, acceptedKey]
        | cons d w => simp [ptrie_find, childAt_fields children _ _ count isEndOfWord]
      · intro w
        cases w with
        | nil => simp [ptrie_find, nodeFlag, acceptedKey]
        | cons d w => simp [ptrie_find, childAt_fields children _ _ count isEndOfWord]
  | cons c rest ih =>
    intro n hn
    by_cases hc : accepted c
    · cases n with
      | NULL => exact absurd rfl hn
      | node children count isEndOfWord =>
        have hlt : c.val < 128 := by unfold accepted at hc; omega
        obtain ⟨m, hm, hmn, hnull, hcount, hflag⟩ :=
          ih (childOrNew (children ⟨c.val, hlt⟩)) (childOrNew_ne_NULL _)
        have hkey : acceptedKey (c :: rest) ↔ acceptedKey rest := by
          simp [acceptedKey, hc]
        refine ⟨.node (Function.update children ⟨c.val, hlt⟩ m) count isEndOfWord,
          ?_, ?_, ?_, ?_, ?_⟩
        · rw [add_loop_cons_accepted children count isEndOfWord rest hc, hm]
          simp [hkey]
        · simp
        · intro w
          cases w with
          | nil => simp [ptrie_find]
          | cons d w =>
            simp only [ptrie_find, childAt_update, acceptedPrefix_cons_accepted rest hc,
              List.cons_prefix_cons]
            by_cases hd : d = c
            · subst hd
              simp only [if_true, hnull, childOrNew_find_NULL, true_and,
                childAt_node_accepted children count isEndOfWord d hlt]
              constructor
              · rintro ⟨⟨h1, -⟩, h2⟩; exact ⟨h1, h2⟩
              · rintro ⟨h1, h2⟩
                refine ⟨⟨h1, ?_⟩, h2⟩
                rintro rfl; exact h2 (List.nil_prefix)
            · simp [hd]
        · intro w
          cases w with
          | nil => simp [ptrie_find, nodeCount]
          | cons d w =>
            simp only [ptrie_find, childAt_update]
            by_cases hd : d = c
            · subst hd
              simp only [if_true, hcount, childOrNew_find_count,
                childAt_node_accepted children count isEndOfWord d hlt, hkey,
                List.cons.injEq, true_and]
            · simp [hd]
        · intro w
          cases w with
          | nil => simp [ptrie_find, nodeFlag]
          | cons d w =>
            simp only [ptrie_find, childAt_update]
            by_cases hd : d = c
            · subst hd
              simp only [if_true, hflag, childOrNew_find_flag,
                childAt_node_accepted children count isEndOfWord d hlt, hkey,
                List.cons.injEq, true_and]
            · simp [hd]
    · have hkey : ¬ acceptedKey (c :: rest) := by
        simp [acceptedKey, hc]
      refine ⟨n, ?_, hn, ?_, ?_, ?_⟩
      · rw [add_loop_cons_rejected n rest hc]; simp [hkey]
      · intro w
        cases w with
        | nil => simp [ptrie_find, hn]
        | cons d w => simp [acceptedPrefix_cons_rejected rest hc]
      · intro w; simp [hkey]
      · intro w; simp [hkey]

/-- What one `ptrie_add` does to a trie with an allocated root: the value returned, the
paths, the counts and the flags afterwards. -/
theorem add_spec (pt : ptrie) (hroot : pt.root ≠ .NULL) (key : List CChar) :
    ∃ pt', ptrie_add pt key = some (if acceptedKey key then 0 else -1, pt') ∧
      pt'.root ≠ .NULL ∧
      (∀ w, ptrie_find pt'.root w = .NULL ↔
        (ptrie_find pt.root w = .NULL ∧ ¬ w <+: acceptedPrefix key)) ∧
      (∀ w, nodeCount (ptrie_find pt'.root w) =
        if w = key ∧ acceptedKey key then int32 (nodeCount (ptrie_find pt.root w) + 1)
        else nodeCount (ptrie_find pt.root w)) ∧
      (∀ w, nodeFlag (ptrie_find pt'.root w) =
        if w = key ∧ acceptedKey key then
          (if nodeFlag (ptrie_find pt.root w) = 0 then 1 else nodeFlag (ptrie_find pt.root w))
        else nodeFlag (ptrie_find pt.root w)) := by
  obtain ⟨n', h1, h2, h3, h4, h5⟩ := add_loop_spec key pt.root hroot
  exact ⟨⟨n'⟩, by simp [ptrie_add, h1], h2, h3, h4, h5⟩

/-- What a sequence of `ptrie_add` calls does to a trie with an allocated root: the values
returned, and the paths, the counts and the flags afterwards. -/
theorem add_all_spec (calls : List (List CChar)) : ∀ pt : ptrie, pt.root ≠ .NULL →
    ∃ pt', ptrie_add_all pt calls =
        some (calls.map (fun key => if acceptedKey key then 0 else -1), pt') ∧
      pt'.root ≠ .NULL ∧
      (∀ w, ptrie_find pt'.root w = .NULL ↔
        (ptrie_find pt.root w = .NULL ∧ ∀ key ∈ calls, ¬ w <+: acceptedPrefix key)) ∧
      (∀ w, nodeCount (ptrie_find pt'.root w) =
        countAfter (nodeCount (ptrie_find pt.root w))
          (calls.countP fun key => decide (key = w ∧ acceptedKey key))) ∧
      (∀ w, nodeFlag (ptrie_find pt'.root w) =
        if ∃ key ∈ calls, key = w ∧ acceptedKey key then
          (if nodeFlag (ptrie_find pt.root w) = 0 then 1 else nodeFlag (ptrie_find pt.root w))
        else nodeFlag (ptrie_find pt.root w)) := by
  induction calls with
  | nil =>
    intro pt hroot
    exact ⟨pt, by simp [ptrie_add_all], hroot, by simp, by simp [countAfter], by simp⟩
  | cons key calls ih =>
    intro pt hroot
    obtain ⟨p1, h1, hr1, hn1, hc1, hf1⟩ := add_spec pt hroot key
    obtain ⟨p2, h2, hr2, hn2, hc2, hf2⟩ := ih p1 hr1
    refine ⟨p2, by simp [ptrie_add_all, h1, h2], hr2, ?_, ?_, ?_⟩
    · intro w
      rw [hn2, hn1]
      simp only [List.mem_cons, forall_eq_or_imp]
      tauto
    · intro w
      rw [hc2, hc1, List.countP_cons]
      by_cases hw : key = w
      · subst hw
        by_cases hk : acceptedKey key
        · simp only [hk, and_self, if_true, decide_True]
          exact countAfter_succ _ _
        · simp [hk]
      · have hw' : ¬ w = key := fun x => hw x.symm
        simp [hw, hw']
    · intro w
      rw [hf2, hf1]
      simp only [List.mem_cons, exists_eq_or_imp]
      by_cases hw : key = w
      · subst hw
        by_cases hk : acceptedKey key
        · by_cases g : ∃ a ∈ calls, a = key ∧ acceptedKey a
          · by_cases z : nodeFlag (ptrie_find pt.root key) = 0 <;> simp [hk, g, z]
          · simp [hk, g]
        · simp [hk]
      · have hw' : ¬ w = key := fun x => hw x.symm
        simp [hw, hw']

/-! ## Every node and every path -/

theorem childAt_slotChar (children : Fin 128 → ptrie_node) (count isEndOfWord : Int)
    (i : Fin 128) : childAt (.node children count isEndOfWord) (slotChar i) = children i := by
  rw [childAt_node_accepted children count isEndOfWord (slotChar i) i.isLt]
  rfl

theorem nodeCount_find_createNode (w : List CChar) :
    nodeCount (ptrie_find ptrie_createNode w) = 0 := by
  have := childOrNew_find_count .NULL w
  simpa [childOrNew, ptrie_node.isNull, ptrie_find_NULL, nodeCount] using this

theorem nodeFlag_find_createNode (w : List CChar) :
    nodeFlag (ptrie_find ptrie_createNode w) = 0 := by
  have := childOrNew_find_flag .NULL w
  simpa [childOrNew, ptrie_node.isNull, ptrie_find_NULL, nodeFlag] using this

theorem acceptedPrefix_append (pre : List CChar) (b : CChar) (rest : List CChar)
    (hpre : acceptedKey pre) (hb : ¬ accepted b) : acceptedPrefix (pre ++ b :: rest) = pre := by
  induction pre with
  | nil => simpa using acceptedPrefix_cons_rejected rest hb
  | cons c pre ih =>
    have hc : accepted c := hpre c (List.mem_cons_self _ _)
    have hp : acceptedKey pre := fun x hx => hpre x (List.mem_cons_of_mem _ hx)
    rw [List.cons_append, acceptedPrefix_cons_accepted _ hc, ih hp]

theorem acceptedPrefix_of_acceptedKey (key : List CChar) (h : acceptedKey key) :
    acceptedPrefix key = key := by
  induction key with
  | nil => rfl
  | cons c key ih =>
    rw [acceptedPrefix_cons_accepted _ (h c (List.mem_cons_self _ _)),
      ih fun x hx => h x (List.mem_cons_of_mem _ hx)]

theorem acceptedPrefix_isPrefix (key : List CChar) : acceptedPrefix key <+: key :=
  List.takeWhile_prefix _

theorem acceptedKey_acceptedPrefix (key : List CChar) : acceptedKey (acceptedPrefix key) := by
  intro c hc
  have := List.mem_takeWhile_imp hc
  simpa using this

theorem helper_node (children : Fin 128 → ptrie_node) (count isEndOfWord : Int)
    (pfx : List CChar) (best : BestSoFar) :
    ptrie_autocompleteHelper (.node children count isEndOfWord) pfx best =
      (List.finRange 128).foldl
        (fun acc i => acc.bind fun b =>
          if (children i).isNull then some b
          else if pfx.length + 1 < 128 then
            ptrie_autocompleteHelper (children i) (nextPrefix pfx i) b
          else none)
        (some (if isEndOfWord ≠ 0 ∧ count > best.2 then (some pfx, count) else best)) :=
  rfl

theorem completions_node (children : Fin 128 → ptrie_node) (count isEndOfWord : Int)
    (pfx : List CChar) :
    completions (.node children count isEndOfWord) pfx =
      (if isEndOfWord ≠ 0 then [(pfx, count)] else []) ++
        (List.finRange 128).flatMap fun i => completions (children i) (nextPrefix pfx i) :=
  rfl

theorem nextPrefix_length_le (pfx : List CChar) (i : Fin 128) :
    (nextPrefix pfx i).length ≤ pfx.length + 1 := by
  unfold nextPrefix
  split_ifs <;> simp

theorem isNull_iff (n : ptrie_node) : n.isNull = true ↔ n = .NULL := by
  cases n <;> simp [ptrie_node.isNull]

/-- Within the buffer, `ptrie_autocompleteHelper` folds `pickBest` over the terminal nodes
of the subtree, in traversal order. -/
theorem helper_eq_foldl : ∀ (n : ptrie_node) (pfx : List CChar) (best : BestSoFar),
    (∀ w, ptrie_find n w ≠ .NULL → pfx.length + w.length ≤ 127) →
    ptrie_autocompleteHelper n pfx best = some ((completions n pfx).foldl pickBest best) := by
  intro n
  induction n with
  | NULL => intro pfx best _; rfl
  | node children count isEndOfWord ih =>
    intro pfx best hb
    rw [helper_node, completions_node, List.foldl_append]
    have hfirst : (if isEndOfWord ≠ 0 ∧ count > best.2 then (some pfx, count) else best) =
        List.foldl pickBest best (if isEndOfWord ≠ 0 then [(pfx, count)] else []) := by
      by_cases he : isEndOfWord ≠ 0
      · simp [he, pickBest]
      · simp [he]
    rw [hfirst]
    generalize List.foldl pickBest best (if isEndOfWord ≠ 0 then [(pfx, count)] else []) = b0
    generalize List.finRange 128 = l
    induction l generalizing b0 with
    | nil => rfl
    | cons i l ihl =>
      rw [List.foldl_cons, List.flatMap_cons, List.foldl_append, Option.some_bind]
      by_cases hn : (children i).isNull = true
      · rw [if_pos hn, (isNull_iff _).mp hn]
        exact ihl b0
      · have hne : children i ≠ .NULL := fun h => hn ((isNull_iff _).mpr h)
        have h1 := hb [slotChar i] (by simpa [ptrie_find, childAt_slotChar] using hne)
        have hlt : pfx.length + 1 < 128 := by simp at h1; omega
        rw [if_neg hn, if_pos hlt, ih i (nextPrefix pfx i) b0 ?_]
        · exact ihl _
        · intro w hw
          have h2 := hb (slotChar i :: w) (by simpa [ptrie_find, childAt_slotChar] using hw)
          have h3 := nextPrefix_length_le pfx i
          simp at h2; omega

/-- The fold of `pickBest` over a list of entries either keeps `best` (no entry has a
greater count) or ends on the first entry whose count is greatest. -/
theorem foldl_pickBest_spec (L : List (List CChar × Int)) : ∀ best : BestSoFar,
    (L.foldl pickBest best = best ∧ ∀ e ∈ L, e.2 ≤ best.2) ∨
    (∃ A e B, L = A ++ e :: B ∧ L.foldl pickBest best = (some e.1, e.2) ∧ best.2 < e.2 ∧
      (∀ x ∈ A, x.2 < e.2) ∧ ∀ x ∈ B, x.2 ≤ e.2) := by
  induction L with
  | nil => intro best; left; simp
  | cons x L ih =>
    intro best
    rw [List.foldl_cons]
    by_cases hx : x.2 > best.2
    · have hp : pickBest best x = (some x.1, x.2) := by simp [pickBest, hx]
      rw [hp]
      right
      rcases ih (some x.1, x.2) with ⟨h1, h2⟩ | ⟨A, e, B, h1, h2, h3, h4, h5⟩
      · exact ⟨[], x, L, rfl, h1, hx, by simp, h2⟩
      · refine ⟨x :: A, e, B, by simp [h1], h2, ?_, ?_, h5⟩
        · simp only at h3; omega
        · intro y hy
          rcases List.mem_cons.mp hy with rfl | hy
          · exact h3
          · exact h4 y hy
    · have hp : pickBest best x = best := by simp [pickBest, hx]
      rw [hp]
      rcases ih best with ⟨h1, h2⟩ | ⟨A, e, B, h1, h2, h3, h4, h5⟩
      · left
        refine ⟨h1, ?_⟩
        intro y hy
        rcases List.mem_cons.mp hy with rfl | hy
        · omega
        · exact h2 y hy
      · right
        refine ⟨x :: A, e, B, by simp [h1], h2, h3, ?_, h5⟩
        intro y hy
        rcases List.mem_cons.mp hy with rfl | hy
        · omega
        · exact h4 y hy

/-- Every entry of the traversal comes from a terminal node of the subtree, carries its
count, and starts with the string of the node the traversal started from. -/
theorem completions_sound : ∀ (n : ptrie_node) (pfx : List CChar) (e : List CChar × Int),
    e ∈ completions n pfx →
    ∃ s, nodeFlag (ptrie_find n s) ≠ 0 ∧ e.2 = nodeCount (ptrie_find n s) ∧ pfx <+: e.1 := by
  intro n
  induction n with
  | NULL => intro pfx e he; simp [completions] at he
  | node children count isEndOfWord ih =>
    intro pfx e he
    rw [completions_node, List.mem_append] at he
    rcases he with he | he
    · by_cases hf : isEndOfWord ≠ 0
      · rw [if_pos hf, List.mem_singleton] at he
        subst he
        exact ⟨[], by simpa [ptrie_find, nodeFlag] using hf, by simp [ptrie_find, nodeCount],
          List.prefix_refl _⟩
      · simp [hf] at he
    · obtain ⟨i, -, hi⟩ := List.mem_flatMap.mp he
      obtain ⟨s, h1, h2, h3⟩ := ih i _ e hi
      refine ⟨slotChar i :: s, by simpa [ptrie_find, childAt_slotChar] using h1,
        by simpa [ptrie_find, childAt_slotChar] using h2, ?_⟩
      refine List.IsPrefix.trans ?_ h3
      unfold nextPrefix
      split_ifs
      · exact List.prefix_refl _
      · exact List.prefix_append _ _

theorem nextPrefix_of_accepted (pfx : List CChar) (i : Fin 128) (h : accepted (slotChar i)) :
    nextPrefix pfx i = pfx ++ [slotChar i] := by
  have : i.val ≠ 0 := by
    have := h.1
    simp only [slotChar] at this
    omega
  simp [nextPrefix, this, slotChar]

/-- When every path of the subtree is made of accepted characters, the entries of the
traversal are the terminal nodes of the subtree, each with the string of its path. -/
theorem mem_completions_iff : ∀ (n : ptrie_node) (pfx : List CChar) (e : List CChar × Int),
    (∀ w, ptrie_find n w ≠ .NULL → acceptedKey w) →
    (e ∈ completions n pfx ↔
      ∃ s, e.1 = pfx ++ s ∧ nodeFlag (ptrie_find n s) ≠ 0 ∧ e.2 = nodeCount (ptrie_find n s)) := by
  intro n
  induction n with
  | NULL =>
    intro pfx e _
    simp [completions, ptrie_find_NULL, nodeFlag]
  | node children count isEndOfWord ih =>
    intro pfx e hv
    have hchild : ∀ i, children i ≠ .NULL → accepted (slotChar i) := by
      intro i hi
      exact hv [slotChar i] (by simpa [ptrie_find, childAt_slotChar] using hi) _
        (List.mem_singleton.mpr rfl)
    have hvc : ∀ i w, ptrie_find (children i) w ≠ .NULL → acceptedKey w := by
      intro i w hw c hc
      exact hv (slotChar i :: w) (by simpa [ptrie_find, childAt_slotChar] using hw) c
        (List.mem_cons_of_mem _ hc)
    rw [completions_node, List.mem_append]
    constructor
    · rintro (he | he)
      · by_cases hf : isEndOfWord ≠ 0
        · rw [if_pos hf, List.mem_singleton] at he
          subst he
          exact ⟨[], by simp, by simpa [ptrie_find, nodeFlag] using hf,
            by simp [ptrie_find, nodeCount]⟩
        · simp [hf] at he
      · obtain ⟨i, -, hi⟩ := List.mem_flatMap.mp he
        have hne : children i ≠ .NULL := by
          intro h; rw [h] at hi; simp [completions] at hi
        rw [nextPrefix_of_accepted pfx i (hchild i hne)] at hi
        obtain ⟨s, h1, h2, h3⟩ := (ih i _ e (hvc i)).mp hi
        exact ⟨slotChar i :: s, by simpa using h1,
          by simpa [ptrie_find, childAt_slotChar] using h2,
          by simpa [ptrie_find, childAt_slotChar] using h3⟩
    · rintro ⟨s, h1, h2, h3⟩
      cases s with
      | nil =>
        left
        have hf : isEndOfWord ≠ 0 := by simpa [ptrie_find, nodeFlag] using h2
        have hc : e.2 = count := by simpa [ptrie_find, nodeCount] using h3
        rw [if_pos hf, List.mem_singleton]
        ext <;> simp [h1, hc]
      | cons d s =>
        right
        have hd : d.val < 128 := by
          by_contra hd
          simp [ptrie_find, childAt, childSlot_of_ge d (by omega), ptrie_find_NULL,
            nodeFlag] at h2
        have hds : slotChar ⟨d.val, hd⟩ = d := rfl
        simp only [ptrie_find, childAt_node_accepted children count isEndOfWord d hd] at h2 h3
        have hne : children ⟨d.val, hd⟩ ≠ .NULL := by
          intro h; rw [h, ptrie_find_NULL] at h2; simp [nodeFlag] at h2
        refine List.mem_flatMap.mpr ⟨⟨d.val, hd⟩, List.mem_finRange _, ?_⟩
        rw [nextPrefix_of_accepted pfx _ (hchild _ hne), hds]
        exact (ih _ _ e (hvc _)).mpr ⟨s, by simpa using h1, h2, h3⟩

theorem mem_completions_child (children : Fin 128 → ptrie_node) (count isEndOfWord : Int)
    (pfx : List CChar)
    (hv : ∀ w, ptrie_find (.node children count isEndOfWord) w ≠ .NULL → acceptedKey w)
    (i : Fin 128) (x : List CChar × Int)
    (hx : x ∈ completions (children i) (nextPrefix pfx i)) :
    ∃ s, x.1 = pfx ++ slotChar i :: s := by
  have hne : children i ≠ .NULL := by
    intro h; rw [h] at hx; simp [completions] at hx
  have hacc : accepted (slotChar i) :=
    hv [slotChar i] (by simpa [ptrie_find, childAt_slotChar] using hne) _
      (List.mem_singleton.mpr rfl)
  obtain ⟨s, -, -, h3⟩ := completions_sound _ _ x hx
  rw [nextPrefix_of_accepted pfx i hacc] at h3
  obtain ⟨t, ht⟩ := h3
  exact ⟨t, by simp [← ht]⟩

/-- The traversal meets the terminal nodes in ascending lexicographic order of their
strings (a word before its extensions). -/
theorem completions_sorted : ∀ (n : ptrie_node) (pfx : List CChar),
    (∀ w, ptrie_find n w ≠ .NULL → acceptedKey w) →
    (completions n pfx).Pairwise fun a b => List.Lex (· < ·) a.1 b.1 := by
  intro n
  induction n with
  | NULL => intro pfx _; simp [completions]
  | node children count isEndOfWord ih =>
    intro pfx hv
    have hvc : ∀ i w, ptrie_find (children i) w ≠ .NULL → acceptedKey w := by
      intro i w hw c hc
      exact hv (slotChar i :: w) (by simpa [ptrie_find, childAt_slotChar] using hw) c
        (List.mem_cons_of_mem _ hc)
    rw [completions_node, List.pairwise_append]
    refine ⟨?_, ?_, ?_⟩
    · split_ifs <;> simp
    · rw [List.pairwise_flatMap]
      refine ⟨fun i _ => ih i _ (hvc i), ?_⟩
      refine List.Pairwise.imp ?_ (List.pairwise_lt_finRange 128)
      intro i j hij x hx y hy
      obtain ⟨s, hs⟩ := mem_completions_child children count isEndOfWord pfx hv i x hx
      obtain ⟨t, ht⟩ := mem_completions_child children count isEndOfWord pfx hv j y hy
      rw [hs, ht]
      refine List.Lex.append_left _ (List.Lex.rel ?_) pfx
      exact hij
    · intro a ha b hb
      obtain ⟨i, -, hi⟩ := List.mem_flatMap.mp hb
      obtain ⟨t, ht⟩ := mem_completions_child children count isEndOfWord pfx hv i b hi
      have ha1 : a.1 = pfx := by
        split_ifs at ha
        · rw [List.mem_singleton.mp ha]
        · simp at ha
      rw [ha1, ht]
      have := List.Lex.append_left (· < ·) (List.Lex.nil : List.Lex (· < ·) [] (slotChar i :: t)) pfx
      simpa using this

theorem ptrie_find_append (n : ptrie_node) (p s : List CChar) :
    ptrie_find n (p ++ s) = ptrie_find (ptrie_find n p) s := by
  induction p generalizing n with
  | nil => rfl
  | cons c p ih => simp [ptrie_find, ih]

/-! ## The first loop of `ptrie_autocomplete` -/

theorem walk_cons (current : ptrie_node) (c : CChar) (rest : List CChar) :
    ptrie_autocomplete_walk current (c :: rest) =
      if ptrie_isValidChar c = 0 then some .invalid
      else
        match current, childSlot (ptrie_char2off c) with
        | .NULL, _ => none
        | .node _ _ _, none => none
        | .node children _ _, some index =>
            if (children index).isNull then some .missing
            else ptrie_autocomplete_walk (children index) rest := by
  cases current <;> rfl

/-- On a prefix of accepted characters the walk ends at the node of the prefix, or
reports that the path is missing. -/
theorem walk_accepted (p : List CChar) : ∀ n : ptrie_node, n ≠ .NULL → acceptedKey p →
    (ptrie_find n p = .NULL → ptrie_autocomplete_walk n p = some .missing) ∧
    (ptrie_find n p ≠ .NULL → ptrie_autocomplete_walk n p = some (.reached (ptrie_find n p))) := by
  induction p with
  | nil =>
    intro n hn _
    exact ⟨fun h => absurd h hn, fun _ => rfl⟩
  | cons c p ih =>
    intro n hn hp
    have hc : accepted c := hp c (List.mem_cons_self _ _)
    have hp' : acceptedKey p := fun x hx => hp x (List.mem_cons_of_mem _ hx)
    have hlt : c.val < 128 := by unfold accepted at hc; omega
    cases n with
    | NULL => exact absurd rfl hn
    | node children count isEndOfWord =>
      rw [walk_cons, if_neg (isValidChar_of_accepted hc)]
      simp only [childSlot_of_lt c hlt, ptrie_find,
        childAt_node_accepted children count isEndOfWord c hlt]
      by_cases hnull : (children ⟨c.val, hlt⟩).isNull = true
      · rw [if_pos hnull, (isNull_iff _).mp hnull, ptrie_find_NULL]
        exact ⟨fun _ => rfl, fun h => absurd rfl h⟩
      · rw [if_neg hnull]
        exact ih _ (fun h => hnull ((isNull_iff _).mpr h)) hp'

/-! ## The result of `ptrie_autocomplete` -/

/-- On an accepted prefix whose existing extensions have at most 127 characters,
`ptrie_autocomplete` returns the string kept by the fold of `pickBest` over the terminal
nodes under the node of the prefix, and the prefix itself when the fold keeps none. -/
theorem autocomplete_eq_foldl (pt : ptrie) (p : List CChar) (hroot : pt.root ≠ .NULL)
    (hp : acceptedKey p)
    (hb : ∀ s, ptrie_find pt.root (p ++ s) ≠ .NULL → (p ++ s).length ≤ 127) :
    ptrie_autocomplete pt p =
      some (some (((completions (ptrie_find pt.root p) p).foldl pickBest (none, -1)).1.getD p)) := by
  obtain ⟨hmiss, hreach⟩ := walk_accepted p pt.root hroot hp
  by_cases hnull : ptrie_find pt.root p = .NULL
  · simp [ptrie_autocomplete, hmiss hnull, hnull, completions]
  · have hlen : p.length + 1 ≤ 128 := by
      have := hb [] (by simpa using hnull)
      simp at this; omega
    have hh := helper_eq_foldl (ptrie_find pt.root p) p (none, -1) (by
      intro w hw
      have := hb w (by rw [ptrie_find_append]; exact hw)
      simpa using this)
    simp only [ptrie_autocomplete, hreach hnull, if_pos hlen, hh]
    rcases hres : (completions (ptrie_find pt.root p) p).foldl pickBest (none, -1) with ⟨r, f⟩
    cases r <;> simp

/-- A prefix of accepted characters whose path exists and that does not fit `char
prefix[128]` with its terminating NUL makes `ptrie_autocomplete` write past the buffer. -/
theorem autocomplete_overflow (pt : ptrie) (p : List CChar) (hroot : pt.root ≠ .NULL)
    (hp : acceptedKey p) (hfind : ptrie_find pt.root p ≠ .NULL) (hlen : 128 ≤ p.length) :
    ptrie_autocomplete pt p = none := by
  have hreach := (walk_accepted p pt.root hroot hp).2 hfind
  have : ¬ (p.length + 1 ≤ 128) := by omega
  simp [ptrie_autocomplete, hreach, this]

/-- The best completion: when every path of the trie is made of accepted characters and
has at most 127 of them, and no terminal node has a negative count, `ptrie_autocomplete`
on a prefix with a terminal node at or below its node returns the string of the first
terminal node of greatest count in traversal order. -/
theorem autocomplete_best (pt : ptrie) (p : List CChar) (hroot : pt.root ≠ .NULL)
    (hv : ∀ w, ptrie_find pt.root w ≠ .NULL → acceptedKey w)
    (hb : ∀ w, ptrie_find pt.root w ≠ .NULL → w.length ≤ 127)
    (hi : ∀ w, nodeFlag (ptrie_find pt.root w) ≠ 0 → 0 ≤ nodeCount (ptrie_find pt.root w))
    (s0 : List CChar) (hs0 : nodeFlag (ptrie_find pt.root (p ++ s0)) ≠ 0) :
    ∃ t, ptrie_autocomplete pt p = some (some (p ++ t)) ∧
      nodeFlag (ptrie_find pt.root (p ++ t)) ≠ 0 ∧
      (∀ s, nodeFlag (ptrie_find pt.root (p ++ s)) ≠ 0 →
        nodeCount (ptrie_find pt.root (p ++ s)) ≤ nodeCount (ptrie_find pt.root (p ++ t)) ∧
        (nodeCount (ptrie_find pt.root (p ++ s)) = nodeCount (ptrie_find pt.root (p ++ t)) →
          s = t ∨ List.Lex (· < ·) (p ++ t) (p ++ s))) ∧
      ∃ A B, completions (ptrie_find pt.root p) p =
          A ++ (p ++ t, nodeCount (ptrie_find pt.root (p ++ t))) :: B ∧
        (∀ x ∈ A, x.2 < nodeCount (ptrie_find pt.root (p ++ t))) ∧
        ∀ x ∈ B, x.2 ≤ nodeCount (ptrie_find pt.root (p ++ t)) := by
  have hnn : ∀ n : ptrie_node, nodeFlag n ≠ 0 → n ≠ .NULL := by
    intro n h hn; rw [hn] at h; exact h rfl
  have hs0' := hnn _ hs0
  have hp : acceptedKey p := fun c hc => hv _ hs0' c (List.mem_append_left _ hc)
  have hvc : ∀ w, ptrie_find (ptrie_find pt.root p) w ≠ .NULL → acceptedKey w := by
    intro w hw c hc
    rw [← ptrie_find_append] at hw
    exact hv _ hw c (List.mem_append_right _ hc)
  have hmem := fun e => mem_completions_iff (ptrie_find pt.root p) p e hvc
  have hsorted := completions_sorted (ptrie_find pt.root p) p hvc
  have heq := autocomplete_eq_foldl pt p hroot hp (fun s hs => hb _ hs)
  have hin : ∀ s, nodeFlag (ptrie_find pt.root (p ++ s)) ≠ 0 →
      (p ++ s, nodeCount (ptrie_find pt.root (p ++ s))) ∈
        completions (ptrie_find pt.root p) p := by
    intro s hs
    rw [ptrie_find_append] at hs
    exact (hmem _).mpr ⟨s, rfl, hs, by rw [ptrie_find_append]⟩
  rcases foldl_pickBest_spec (completions (ptrie_find pt.root p) p) (none, -1) with
    ⟨-, h2⟩ | ⟨A, e, B, h1, h2, -, h4, h5⟩
  · have := h2 _ (hin s0 hs0)
    have := hi _ hs0
    simp only at *
    omega
  · have he : e ∈ completions (ptrie_find pt.root p) p := by rw [h1]; simp
    obtain ⟨t, ht1, ht2, ht3⟩ := (hmem e).mp he
    rw [← ptrie_find_append] at ht2 ht3
    have hee : e = (p ++ t, nodeCount (ptrie_find pt.root (p ++ t))) := by
      ext <;> simp [ht1, ht3]
    rw [hee] at h1 h2 h4 h5
    refine ⟨t, ?_, ht2, ?_, A, B, h1, h4, h5⟩
    · rw [heq, h2]; rfl
    · intro s hs
      have hsm := hin s hs
      rw [h1, List.mem_append, List.mem_cons] at hsm
      rw [h1, List.pairwise_append, List.pairwise_cons] at hsorted
      rcases hsm with hA | hE | hB
      · have := h4 _ hA
        simp only at this
        exact ⟨by omega, fun h => by omega⟩
      · have h3 : p ++ s = p ++ t := congrArg Prod.fst hE
        have h4' : s = t := List.append_cancel_left h3
        subst h4'
        exact ⟨le_refl _, fun _ => Or.inl rfl⟩
      · have := h5 _ hB
        exact ⟨this, fun _ => Or.inr (hsorted.2.1.1 _ hB)⟩

/-! ## Tries built by insertions -/

/-- The trie built from a new trie by a sequence of `ptrie_add` calls: its paths, its
counts and its flags, read from the keys of the calls. -/
theorem built_spec (calls : List (List CChar)) :
    ∃ pt, ptrie_add_all ptrie_allocate calls =
        some (calls.map (fun key => if acceptedKey key then 0 else -1), pt) ∧
      pt.root ≠ .NULL ∧
      (∀ w, ptrie_find pt.root w ≠ .NULL ↔
        (w = [] ∨ ∃ key ∈ calls, w <+: acceptedPrefix key)) ∧
      (∀ w, nodeCount (ptrie_find pt.root w) =
        int32 (calls.countP fun key => decide (key = w ∧ acceptedKey key))) ∧
      (∀ w, nodeFlag (ptrie_find pt.root w) ≠ 0 ↔ (w ∈ calls ∧ acceptedKey w)) := by
  have hroot : ptrie_allocate.root ≠ .NULL := by simp [ptrie_allocate, ptrie_createNode]
  obtain ⟨pt, h1, hr, hn, hc, hf⟩ := add_all_spec calls ptrie_allocate hroot
  refine ⟨pt, h1, hr, ?_, ?_, ?_⟩
  · intro w
    have h0 : ptrie_find ptrie_allocate.root w = .NULL ↔ w ≠ [] := by
      have := childOrNew_find_NULL .NULL w
      simpa [childOrNew, ptrie_node.isNull, ptrie_find_NULL, ptrie_allocate] using this
    rw [Ne, hn w, h0]
    constructor
    · intro h
      by_cases hw : w = []
      · exact Or.inl hw
      · right
        by_contra hcon
        exact h ⟨hw, fun key hk hpre => hcon ⟨key, hk, hpre⟩⟩
    · rintro (hw | ⟨key, hk, hpre⟩) ⟨h1, h2⟩
      · exact h1 hw
      · exact h2 key hk hpre
  · intro w
    rw [hc w]
    simp only [ptrie_allocate, nodeCount_find_createNode]
    exact countAfter_start _
  · intro w
    rw [hf w]
    simp only [ptrie_allocate, nodeFlag_find_createNode, if_true]
    by_cases h : ∃ key ∈ calls, key = w ∧ acceptedKey key
    · rw [if_pos h]
      obtain ⟨key, hk, rfl, hacc⟩ := h
      simp [hk, hacc]
    · rw [if_neg h]
      simp only [ne_eq, not_true_eq_false, false_iff]
      rintro ⟨hw, hacc⟩
      exact h ⟨w, hw, rfl, hacc⟩

theorem acceptedKey_of_isPrefix {w key : List CChar} (h : w <+: key) (hk : acceptedKey key) :
    acceptedKey w :=
  fun c hc => hk c (h.subset hc)

/-- The paths of a built trie are made of accepted characters. -/
theorem built_paths_accepted (calls : List (List CChar)) (pt : ptrie)
    (hn : ∀ w, ptrie_find pt.root w ≠ .NULL ↔
      (w = [] ∨ ∃ key ∈ calls, w <+: acceptedPrefix key))
    (w : List CChar) (hw : ptrie_find pt.root w ≠ .NULL) : acceptedKey w := by
  rcases (hn w).mp hw with rfl | ⟨key, -, hpre⟩
  · intro c hc; simp at hc
  · exact acceptedKey_of_isPrefix hpre (acceptedKey_acceptedPrefix key)

/-- The paths of a trie built from keys of at most 127 characters have at most 127. -/
theorem built_paths_short (calls : List (List CChar)) (pt : ptrie)
    (hlen : ∀ key ∈ calls, key.length ≤ 127)
    (hn : ∀ w, ptrie_find pt.root w ≠ .NULL ↔
      (w = [] ∨ ∃ key ∈ calls, w <+: acceptedPrefix key))
    (w : List CChar) (hw : ptrie_find pt.root w ≠ .NULL) : w.length ≤ 127 := by
  rcases (hn w).mp hw with rfl | ⟨key, hk, hpre⟩
  · simp
  · have h1 := hpre.length_le
    have h2 := (acceptedPrefix_isPrefix key).length_le
    have h3 := hlen key hk
    omega

theorem not_lex_append_self (s t : List CChar) : ¬ List.Lex (· < ·) (s ++ t) s := by
  induction s with
  | nil => exact List.Lex.not_nil_right _ _
  | cons a s ih =>
    intro h
    cases h with
    | cons h => exact ih h
    | rel h => exact lt_irrefl _ h

theorem add_all_append_singleton (calls : List (List CChar)) (key : List CChar) :
    ∀ pt : ptrie, ptrie_add_all pt (calls ++ [key]) =
      (ptrie_add_all pt calls).bind fun q =>
        (ptrie_add q.2 key).map fun r => (q.1 ++ [r.1], r.2) := by
  induction calls with
  | nil =>
    intro pt
    simp only [List.nil_append, ptrie_add_all, Option.some_bind]
    cases ptrie_add pt key <;> simp [ptrie_add_all]
  | cons c calls ih =>
    intro pt
    simp only [List.cons_append, ptrie_add_all]
    cases h : ptrie_add pt c with
    | none => simp
    | some r =>
      simp only [Option.some_bind, List.append_eq]
      rw [ih r.2]
      cases hq : ptrie_add_all r.2 calls with
      | none => simp
      | some q =>
        simp only [Option.some_bind, Option.map_some']
        cases ptrie_add q.2 key <;> simp

/-- The best completion in a trie built from keys of at most 127 characters, none of them
inserted `2^31` times. -/
theorem built_autocomplete (calls : List (List CChar)) (p : List CChar)
    (hlen : ∀ key ∈ calls, key.length ≤ 127)
    (hcnt : ∀ w, (calls.countP fun key => decide (key = w ∧ acceptedKey key)) < 2147483648)
    (hex : ∃ w ∈ calls, acceptedKey w ∧ p <+: w) :
    ∃ pt r, ptrie_add_all ptrie_allocate calls =
        some (calls.map (fun key => if acceptedKey key then 0 else -1), pt) ∧
      ptrie_autocomplete pt p = some (some r) ∧ r ∈ calls ∧ acceptedKey r ∧ p <+: r ∧
      (∀ w ∈ calls, acceptedKey w → p <+: w →
        nodeCount (ptrie_find pt.root w) ≤ nodeCount (ptrie_find pt.root r) ∧
        (nodeCount (ptrie_find pt.root w) = nodeCount (ptrie_find pt.root r) →
          w = r ∨ List.Lex (· < ·) r w)) ∧
      ∃ A B, completions (ptrie_find pt.root p) p =
          A ++ (r, nodeCount (ptrie_find pt.root r)) :: B ∧
        (∀ x ∈ A, x.2 < nodeCount (ptrie_find pt.root r)) ∧
        ∀ x ∈ B, x.2 ≤ nodeCount (ptrie_find pt.root r) := by
  obtain ⟨pt, h1, hroot, hn, hc, hf⟩ := built_spec calls
  obtain ⟨w0, hw0, hacc0, s0, rfl⟩ := hex
  have hi : ∀ w, nodeFlag (ptrie_find pt.root w) ≠ 0 → 0 ≤ nodeCount (ptrie_find pt.root w) := by
    intro w _
    rw [hc w, int32_of_range _ ⟨by omega, by have := hcnt w; omega⟩]
    exact Int.natCast_nonneg _
  obtain ⟨t, ht1, ht2, ht3, A, B, ht4⟩ :=
    autocomplete_best pt p hroot (built_paths_accepted calls pt hn)
      (built_paths_short calls pt hlen hn) hi s0 ((hf _).mpr ⟨hw0, hacc0⟩)
  have hr := (hf _).mp ht2
  refine ⟨pt, p ++ t, h1, ht1, hr.1, hr.2, List.prefix_append _ _, ?_, A, B, ht4⟩
  rintro w hw hacc ⟨s, rfl⟩
  obtain ⟨h3, h4⟩ := ht3 s ((hf _).mpr ⟨hw, hacc⟩)
  refine ⟨h3, fun h => ?_⟩
  rcases h4 h with rfl | hlex
  · exact Or.inl rfl
  · exact Or.inr hlex

/-- In a built trie, a prefix of 128 accepted characters or more whose path exists makes
`ptrie_autocomplete` write past `char prefix[128]`. -/
theorem built_overflow (calls : List (List CChar)) (p : List CChar) (hp : acceptedKey p)
    (hex : ∃ key ∈ calls, p <+: acceptedPrefix key) (hlen : 128 ≤ p.length) :
    ∃ pt, ptrie_add_all ptrie_allocate calls =
        some (calls.map (fun key => if acceptedKey key then 0 else -1), pt) ∧
      ptrie_autocomplete pt p = none ∧
      (∀ w, nodeFlag (ptrie_find pt.root w) ≠ 0 ↔ (w ∈ calls ∧ acceptedKey w)) := by
  obtain ⟨pt, h1, hroot, hn, -, hf⟩ := built_spec calls
  exact ⟨pt, h1, autocomplete_overflow pt p hroot hp ((hn p).mpr (Or.inr hex)) hlen, hf⟩

theorem acceptedKey_replicate (n : Nat) (c : CChar) (hc : accepted c) :
    acceptedKey (List.replicate n c) := by
  intro d hd
  rw [List.eq_of_mem_replicate hd]
  exact hc

theorem acceptedKey_append {a b : List CChar} (ha : acceptedKey a) (hb : acceptedKey b) :
    acceptedKey (a ++ b) := by
  intro c hc
  rcases List.mem_append.mp hc with h | h
  · exact ha c h
  · exact hb c h

/-! ## Best-completion lookup: the claims -/

set_option maxRecDepth 1000000 in
/-- After "cat" once and "car" three times, the completion of "ca" is "car". -/
theorem autocomplete_example_most_frequent :
    ((ptrie_add_all ptrie_allocate
        [[99, 97, 116], [99, 97, 114], [99, 97, 114], [99, 97, 114]]).bind
      (fun q => ptrie_autocomplete q.2 [99, 97])) = some (some [99, 97, 114]) := by
  decide

set_option maxRecDepth 1000000 in
/-- After "cat" and "car" once each, the completion of "ca" is "car". -/
theorem autocomplete_example_tie :
    ((ptrie_add_all ptrie_allocate [[99, 97, 116], [99, 97, 114]]).bind
      (fun q => ptrie_autocomplete q.2 [99, 97])) = some (some [99, 97, 114]) := by
  decide

theorem foldl_pickBest_none (l : List (List CChar × Int)) (h : ∀ e ∈ l, e.2 ≤ -1) :
    l.foldl pickBest (none, -1) = (none, -1) := by
  induction l with
  | nil => rfl
  | cons e l ih =>
    have he : ¬ e.2 > -1 := by
      have := h e (List.mem_cons_self _ _)
      omega
    rw [List.foldl_cons]
    have hstep : pickBest (none, -1) e = (none, -1) := by
      unfold pickBest
      rw [if_neg he]
    rw [hstep]
    exact ih fun x hx => h x (List.mem_cons_of_mem _ hx)

/-- After `2^31` insertions of "ab" into a new trie, each returning 0, the count of "ab" is
`-2^31` and the lookup of "a" returns "a": the word "ab" is not found. -/
theorem autocomplete_after_count_wrap :
    ∃ rets pt, ptrie_add_all ptrie_allocate (List.replicate 2147483648 [97, 98]) =
        some (rets, pt) ∧
      (∀ r ∈ rets, r = 0) ∧
      nodeCount (ptrie_find pt.root [97, 98]) = -2147483648 ∧
      nodeFlag (ptrie_find pt.root [97, 98]) ≠ 0 ∧
      ptrie_autocomplete pt [97] = some (some [97]) := by
  have hk : acceptedKey ([97, 98] : List CChar) := by
    intro c hc; fin_cases hc <;> decide
  have hp : acceptedKey ([97] : List CChar) := by
    intro c hc; fin_cases hc; decide
  obtain ⟨pt, h1, hroot, hn, hc, hf⟩ := built_spec (List.replicate 2147483648 [97, 98])
  have hmem : ∀ key ∈ List.replicate 2147483648 ([97, 98] : List CChar), key = [97, 98] :=
    fun key h => (List.mem_replicate.mp h).2
  have hin : ([97, 98] : List CChar) ∈ List.replicate 2147483648 ([97, 98] : List CChar) :=
    List.mem_replicate.mpr ⟨by omega, rfl⟩
  have hcount : nodeCount (ptrie_find pt.root [97, 98]) = -2147483648 := by
    rw [hc, List.countP_replicate]
    have : decide (([97, 98] : List CChar) = [97, 98] ∧ acceptedKey [97, 98]) = true :=
      decide_eq_true ⟨rfl, hk⟩
    rw [if_pos this]
    unfold int32; omega
  refine ⟨_, pt, h1, ?_, hcount, (hf _).mpr ⟨hin, hk⟩, ?_⟩
  · intro r hr
    obtain ⟨key, hkey, rfl⟩ := List.mem_map.mp hr
    rw [hmem key hkey, if_pos hk]
  · have hshort := built_paths_short _ pt (fun key h => by rw [hmem key h]; decide) hn
    rw [autocomplete_eq_foldl pt [97] hroot hp (fun s hs => hshort _ hs)]
    rw [foldl_pickBest_none]
    · rfl
    · intro e he
      obtain ⟨s, hs1, hs2, -⟩ := completions_sound _ _ e he
      rw [← ptrie_find_append] at hs1 hs2
      obtain ⟨hw, -⟩ := (hf _).mp hs1
      rw [hmem _ hw] at hs2
      rw [hs2, hcount]
      decide

/-- C2 fails on the code: after the insertion of a word of 200 accepted characters into a
new trie, which returns 0, the lookup of that word as a prefix copies 201 bytes into
`char prefix[128]` and returns no string, where the claim gives the inserted word. -/
theorem C2_lookup_of_a_long_word_leaves_the_buffer :
    acceptedKey (List.replicate 200 (97 : CChar)) ∧
    (∃ w ∈ [List.replicate 200 (97 : CChar)],
      acceptedKey w ∧ List.replicate 200 (97 : CChar) <+: w) ∧
    ∃ pt, ptrie_add_all ptrie_allocate [List.replicate 200 (97 : CChar)] = some ([0], pt) ∧
      ptrie_autocomplete pt (List.replicate 200 (97 : CChar)) = none := by
  have hacc : acceptedKey (List.replicate 200 (97 : CChar)) :=
    acceptedKey_replicate 200 97 (by decide)
  obtain ⟨pt, h1, h2, -⟩ := built_overflow [List.replicate 200 (97 : CChar)]
    (List.replicate 200 97) hacc
    ⟨_, List.mem_singleton.mpr rfl, by rw [acceptedPrefix_of_acceptedKey _ hacc]⟩
    (by rw [List.length_replicate]; omega)
  refine ⟨hacc, ⟨_, List.mem_singleton.mpr rfl, hacc, List.prefix_refl _⟩, pt, ?_, h2⟩
  simp only [h1, List.map_cons, List.map_nil, if_pos hacc]

/-- C3 fails on the code: with two words of 201 accepted characters, inserted once each,
under a common prefix of 200 characters, the lookup of the prefix copies 201 bytes into
`char prefix[128]` and returns no string, where the claim gives the first of the two
words. -/
theorem C3_lookup_of_a_long_tie_leaves_the_buffer :
    acceptedKey (List.replicate 200 (120 : CChar)) ∧
    (∃ w ∈ [List.replicate 200 (120 : CChar) ++ [116], List.replicate 200 (120 : CChar) ++ [114]],
      acceptedKey w ∧ List.replicate 200 (120 : CChar) <+: w) ∧
    ∃ pt, ptrie_add_all ptrie_allocate
        [List.replicate 200 (120 : CChar) ++ [116], List.replicate 200 (120 : CChar) ++ [114]] =
          some ([0, 0], pt) ∧
      ptrie_autocomplete pt (List.replicate 200 (120 : CChar)) = none := by
  have hacc : acceptedKey (List.replicate 200 (120 : CChar)) :=
    acceptedKey_replicate 200 120 (by decide)
  have hacc1 : acceptedKey (List.replicate 200 (120 : CChar) ++ [116]) :=
    acceptedKey_append hacc (by intro c hc; fin_cases hc; decide)
  have hacc2 : acceptedKey (List.replicate 200 (120 : CChar) ++ [114]) :=
    acceptedKey_append hacc (by intro c hc; fin_cases hc; decide)
  obtain ⟨pt, h1, h2, -⟩ := built_overflow
    [List.replicate 200 (120 : CChar) ++ [116], List.replicate 200 (120 : CChar) ++ [114]]
    (List.replicate 200 120) hacc
    ⟨_, List.mem_cons_self _ _, by
      rw [acceptedPrefix_of_acceptedKey _ hacc1]; exact List.prefix_append _ _⟩
    (by rw [List.length_replicate]; omega)
  refine ⟨hacc, ⟨_, List.mem_cons_self _ _, hacc1, List.prefix_append _ _⟩, pt, ?_, h2⟩
  simp only [h1, List.map_cons, List.map_nil, if_pos hacc1, if_pos hacc2]

/-- The trie after one more insertion of an accepted key is the trie built by the longer
sequence of calls. -/
theorem built_then_add (calls : List (List CChar)) (s : List CChar) (hs : acceptedKey s) :
    ∃ pt pt', ptrie_add_all ptrie_allocate calls =
        some (calls.map (fun key => if acceptedKey key then 0 else -1), pt) ∧
      ptrie_add pt s = some (0, pt') ∧ pt'.root ≠ .NULL ∧
      (∀ w, ptrie_find pt'.root w ≠ .NULL ↔
        (w = [] ∨ ∃ key ∈ calls ++ [s], w <+: acceptedPrefix key)) ∧
      (∀ w, nodeCount (ptrie_find pt'.root w) =
        int32 ((calls ++ [s]).countP fun key => decide (key = w ∧ acceptedKey key))) ∧
      (∀ w, nodeFlag (ptrie_find pt'.root w) ≠ 0 ↔ (w ∈ calls ++ [s] ∧ acceptedKey w)) := by
  obtain ⟨pt, h1, hroot, -⟩ := built_spec calls
  obtain ⟨pt', h2, hroot', hn, hc, hf⟩ := built_spec (calls ++ [s])
  obtain ⟨p1, h3, -⟩ := add_spec pt hroot s
  rw [if_pos hs] at h3
  rw [add_all_append_singleton, h1, Option.some_bind, h3] at h2
  simp only [Option.map_some', Option.some.injEq, Prod.mk.injEq] at h2
  rw [h2.2] at h3
  exact ⟨pt, pt', h1, h3, hroot', hn, hc, hf⟩

/-- The round trip within the limits: in a trie built by insertions of keys of at most
127 characters, after `ptrie_add` of an accepted string `s` of at most 127 characters, no
key being inserted `2^31` times, `ptrie_autocomplete` of `s` returns `s`, provided no
inserted proper extension of `s` has a count greater than the count of `s`. -/
theorem round_trip_within_limits (calls : List (List CChar)) (s : List CChar)
    (hlen : ∀ key ∈ calls, key.length ≤ 127)
    (hcnt : ∀ w, ((calls ++ [s]).countP fun key => decide (key = w ∧ acceptedKey key)) <
      2147483648)
    (hs : acceptedKey s) (hslen : s.length ≤ 127) :
    ∃ pt pt', ptrie_add_all ptrie_allocate calls =
        some (calls.map (fun key => if acceptedKey key then 0 else -1), pt) ∧
      ptrie_add pt s = some (0, pt') ∧
      ((∀ w ∈ calls, acceptedKey w → s <+: w → w ≠ s →
          ¬ nodeCount (ptrie_find pt'.root s) < nodeCount (ptrie_find pt'.root w)) →
        ptrie_autocomplete pt' s = some (some s)) := by
  obtain ⟨pt, pt', h1, h2, hroot, hn, hc, hf⟩ := built_then_add calls s hs
  refine ⟨pt, pt', h1, h2, fun hprov => ?_⟩
  have hlen' : ∀ key ∈ calls ++ [s], key.length ≤ 127 := by
    intro key hk
    rcases List.mem_append.mp hk with h | h
    · exact hlen key h
    · rw [List.mem_singleton.mp h]; exact hslen
  have hi : ∀ w, nodeFlag (ptrie_find pt'.root w) ≠ 0 →
      0 ≤ nodeCount (ptrie_find pt'.root w) := by
    intro w _
    rw [hc w, int32_of_range _ ⟨by omega, by have := hcnt w; omega⟩]
    exact Int.natCast_nonneg _
  have hflag : nodeFlag (ptrie_find pt'.root (s ++ [])) ≠ 0 := by
    rw [List.append_nil]
    exact (hf s).mpr ⟨by simp, hs⟩
  obtain ⟨t, ht1, ht2, ht3, -⟩ :=
    autocomplete_best pt' s hroot (built_paths_accepted _ pt' hn)
      (built_paths_short _ pt' hlen' hn) hi [] hflag
  by_cases hst : s ++ t = s
  · rw [ht1, hst]
  · obtain ⟨h3, h4⟩ := ht3 [] hflag
    obtain ⟨hmem, hacc⟩ := (hf _).mp ht2
    have hcalls : s ++ t ∈ calls := by
      rcases List.mem_append.mp hmem with h | h
      · exact h
      · exact absurd (List.mem_singleton.mp h) hst
    have h5 := hprov (s ++ t) hcalls hacc (List.prefix_append _ _) hst
    rw [List.append_nil] at h3 h4
    rcases h4 (le_antisymm h3 (not_lt.mp h5)) with h | h
    · rw [ht1, ← h, List.append_nil]
    · exact absurd h (not_lex_append_self s t)

/-- The round trip on a new trie: after the insertion of an accepted string of at most 127
characters into a new trie, its lookup returns it. -/
theorem round_trip_new_trie (s : List CChar) (hs : acceptedKey s) (hslen : s.length ≤ 127) :
    ∃ pt', ptrie_add ptrie_allocate s = some (0, pt') ∧
      ptrie_autocomplete pt' s = some (some s) := by
  have hcnt : ∀ w, (([] ++ [s]).countP fun key => decide (key = w ∧ acceptedKey key)) <
      2147483648 := by
    intro w
    exact lt_of_le_of_lt (List.countP_le_length _) (by simp)
  obtain ⟨pt, pt', h1, h2, h3⟩ := round_trip_within_limits [] s (by simp) hcnt hs hslen
  simp only [ptrie_add_all, List.map_nil, Option.some.injEq, Prod.mk.injEq, true_and] at h1
  rw [← h1] at h2
  exact ⟨pt', h2, h3 (by simp)⟩

/-- C4 fails on the code: after the insertion of a string of 200 accepted characters into
a new trie, which returns 0, its lookup copies 201 bytes into `char prefix[128]` and
returns no string, where the claim gives the string back. -/
theorem C4_round_trip_of_a_long_string_leaves_the_buffer :
    acceptedKey (List.replicate 200 (65 : CChar)) ∧
    ∃ pt, ptrie_add ptrie_allocate (List.replicate 200 (65 : CChar)) = some (0, pt) ∧
      ptrie_autocomplete pt (List.replicate 200 (65 : CChar)) = none := by
  have hacc : acceptedKey (List.replicate 200 (65 : CChar)) :=
    acceptedKey_replicate 200 65 (by decide)
  obtain ⟨pt, pt', h1, h2, hroot, hn, -⟩ := built_then_add [] _ hacc
  simp only [ptrie_add_all, List.map_nil, Option.some.injEq, Prod.mk.injEq, true_and] at h1
  rw [← h1] at h2
  refine ⟨hacc, pt', h2, autocomplete_overflow pt' _ hroot hacc ?_
    (by rw [List.length_replicate]; omega)⟩
  exact (hn _).mpr (Or.inr ⟨List.replicate 200 65,
    List.mem_append_right _ (List.mem_singleton.mpr rfl),
    by rw [acceptedPrefix_of_acceptedKey _ hacc]⟩)

/-- The fallback within the limits: for a prefix of accepted characters with no terminal
node at or below its path, `ptrie_autocomplete` returns the prefix itself, provided every
existing path through the prefix has at most 127 characters (none has when the path of
the prefix is missing, as for "xyz" in a new trie). -/
theorem no_match_returns_the_prefix (children : Fin 128 → ptrie_node)
    (count isEndOfWord : Int) (p : List CChar) (hp : acceptedKey p)
    (hno : ∀ s, nodeFlag (ptrie_find (.node children count isEndOfWord) (p ++ s)) = 0)
    (hb : ∀ s, ptrie_find (.node children count isEndOfWord) (p ++ s) ≠ .NULL →
      (p ++ s).length ≤ 127) :
    ptrie_autocomplete ⟨.node children count isEndOfWord⟩ p = some (some p) := by
  rw [autocomplete_eq_foldl ⟨.node children count isEndOfWord⟩ p (by simp) hp hb]
  have hnil : completions (ptrie_find (.node children count isEndOfWord) p) p = [] := by
    rw [List.eq_nil_iff_forall_not_mem]
    intro e he
    obtain ⟨s, h1, -⟩ := completions_sound _ _ e he
    rw [← ptrie_find_append] at h1
    exact h1 (hno s)
  simp [hnil]

/-- The lookup of "xyz" in a new trie returns "xyz". -/
theorem no_match_example :
    ptrie_autocomplete ⟨.node (fun _ => .NULL) 0 0⟩ [120, 121, 122] =
      some (some [120, 121, 122]) :=
  no_match_returns_the_prefix (fun _ => .NULL) 0 0 [120, 121, 122]
    (by intro c hc; fin_cases hc <;> decide) (fun _ => nodeFlag_find_createNode _)
    (fun _ h => absurd (ptrie_find_createNode_cons _ _) h)

/-- C5 fails on the code: after the failed insertion of 200 accepted characters followed
by a rejected one, no word is inserted, the path of the 200 characters exists, and the
lookup of these 200 characters copies 201 bytes into `char prefix[128]` and returns no
string, where the claim gives the prefix back. -/
theorem C5_lookup_of_a_long_path_without_word_leaves_the_buffer :
    acceptedKey (List.replicate 200 (97 : CChar)) ∧
    ∃ pt, ptrie_add_all ptrie_allocate [List.replicate 200 (97 : CChar) ++ [1]] =
        some ([-1], pt) ∧
      (∀ w, nodeFlag (ptrie_find pt.root w) = 0) ∧
      ptrie_autocomplete pt (List.replicate 200 (97 : CChar)) = none := by
  have hacc : acceptedKey (List.replicate 200 (97 : CChar)) :=
    acceptedKey_replicate 200 97 (by decide)
  have hrej : ¬ accepted (1 : CChar) := by decide
  have hkey : ¬ acceptedKey (List.replicate 200 (97 : CChar) ++ [1]) :=
    fun h => hrej (h 1 (List.mem_append_right _ (List.mem_singleton.mpr rfl)))
  obtain ⟨pt, h1, h2, hf⟩ := built_overflow [List.replicate 200 (97 : CChar) ++ [1]]
    (List.replicate 200 97) hacc
    ⟨_, List.mem_singleton.mpr rfl, by rw [acceptedPrefix_append _ _ _ hacc hrej]⟩
    (by rw [List.length_replicate]; omega)
  refine ⟨hacc, pt, ?_, ?_, h2⟩
  · simp only [h1, List.map_cons, List.map_nil, if_neg hkey]
  · intro w
    by_contra h
    obtain ⟨hw, hwacc⟩ := (hf w).mp h
    rw [List.mem_singleton.mp hw] at hwacc
    exact hkey hwacc

/-- C7 fails on the code: on a new trie, the lookup of "a" followed by the character of
code 1 finds no child for "a", returns a copy of the prefix and never tests the second
character. -/
theorem C7_invalid_character_after_a_missing_path :
    ¬ accepted (1 : CChar) ∧
    ptrie_autocomplete ptrie_allocate [97, 1] = some (some [97, 1]) := by
  constructor
  · decide
  · have h : accepted (97 : CChar) := by decide
    simp [ptrie_autocomplete, walk_cons, isValidChar_of_accepted h, childSlot_of_accepted h,
      ptrie_allocate, ptrie_createNode, ptrie_node.isNull]

/-- The counts and the flags of the trie that a sequence of calls builds. -/
theorem built_spec_of (calls : List (List CChar)) (rets : List Int) (pt : ptrie)
    (h : ptrie_add_all ptrie_allocate calls = some (rets, pt)) :
    rets = calls.map (fun key => if acceptedKey key then 0 else -1) ∧
      pt.root ≠ .NULL ∧
      (∀ w, nodeCount (ptrie_find pt.root w) =
        int32 (calls.countP fun key => decide (key = w ∧ acceptedKey key))) ∧
      (∀ w, nodeFlag (ptrie_find pt.root w) ≠ 0 ↔ (w ∈ calls ∧ acceptedKey w)) := by
  obtain ⟨pt0, h1, hroot, -, hc, hf⟩ := built_spec calls
  rw [h1] at h
  simp only [Option.some.injEq, Prod.mk.injEq] at h
  obtain ⟨h2, h3⟩ := h
  subst h3
  exact ⟨h2.symm, hroot, hc, hf⟩

/-- A key that is not accepted is a non-empty or empty run of accepted characters, then a
character outside the accepted range, then the rest. -/
theorem rejected_key_split (key : List CChar) (h : ¬ acceptedKey key) :
    ∃ b rest, key = acceptedPrefix key ++ b :: rest ∧ ¬ accepted b := by
  induction key with
  | nil => exact absurd (fun c hc => absurd hc (List.not_mem_nil c)) h
  | cons c key ih =>
    by_cases hc : accepted c
    · have h' : ¬ acceptedKey key := by
        intro hk
        apply h
        intro d hd
        rcases List.mem_cons.mp hd with rfl | hd
        · exact hc
        · exact hk d hd
      obtain ⟨b, rest, h1, h2⟩ := ih h'
      refine ⟨b, rest, ?_, h2⟩
      rw [acceptedPrefix_cons_accepted key hc, List.cons_append, ← h1]
    · exact ⟨c, key, by rw [acceptedPrefix_cons_rejected key hc]; rfl, hc⟩

theorem mem_zip_returned (calls : List (List CChar)) (key : List CChar) (hk : key ∈ calls) :
    (key, if acceptedKey key then (0 : Int) else -1) ∈
      calls.zip (calls.map fun key => if acceptedKey key then (0 : Int) else -1) := by
  induction calls with
  | nil => exact absurd hk (List.not_mem_nil key)
  | cons c calls ih =>
    rw [List.map_cons, List.zip_cons_cons]
    rcases List.mem_cons.mp hk with rfl | h
    · exact List.mem_cons_self _ _
    · exact List.mem_cons_of_mem _ (ih h)

/-- C14, amended: in a trie built from a new trie by `ptrie_add` calls, when every call
returned 0 every node other than the root has a terminal node in its subtree (itself or a
descendant); and whatever the calls returned, a node other than the root with no terminal
node at or below it lies on the path of the characters that come before the first invalid
character of a call that returned -1, this invalid character coming after the first
position of the key. -/
theorem C14_every_node_leads_to_a_word (calls : List (List CChar)) :
    ∃ rets pt, ptrie_add_all ptrie_allocate calls = some (rets, pt) ∧
      rets.length = calls.length ∧
      ((∀ r ∈ rets, r = 0) →
        ∀ w, w ≠ [] → ptrie_find pt.root w ≠ .NULL →
          ∃ s, nodeFlag (ptrie_find pt.root (w ++ s)) ≠ 0) ∧
      ∀ w, w ≠ [] → ptrie_find pt.root w ≠ .NULL →
        (∀ s, nodeFlag (ptrie_find pt.root (w ++ s)) = 0) →
        ∃ pre b rest, (pre ++ b :: rest, -1) ∈ calls.zip rets ∧
          pre ≠ [] ∧ (∀ c ∈ pre, 32 ≤ c.val ∧ c.val ≤ 127) ∧
          ¬ (32 ≤ b.val ∧ b.val ≤ 127) ∧ w <+: pre := by
  obtain ⟨pt, h1, -, hn, -, hf⟩ := built_spec calls
  have main : ∀ w, w ≠ [] → ptrie_find pt.root w ≠ .NULL →
      (∃ s, nodeFlag (ptrie_find pt.root (w ++ s)) ≠ 0) ∨
      ∃ pre b rest, (pre ++ b :: rest, -1) ∈
          calls.zip (calls.map fun key => if acceptedKey key then (0 : Int) else -1) ∧
        pre ≠ [] ∧ (∀ c ∈ pre, 32 ≤ c.val ∧ c.val ≤ 127) ∧
        ¬ (32 ≤ b.val ∧ b.val ≤ 127) ∧ w <+: pre := by
    intro w hw hfind
    rcases (hn w).mp hfind with h | ⟨key, hk, hpre⟩
    · exact absurd h hw
    · by_cases hacc : acceptedKey key
      · left
        rw [acceptedPrefix_of_acceptedKey key hacc] at hpre
        obtain ⟨s, rfl⟩ := hpre
        exact ⟨s, (hf _).mpr ⟨hk, hacc⟩⟩
      · right
        obtain ⟨b, rest, hsplit, hb⟩ := rejected_key_split key hacc
        have hmem := mem_zip_returned calls key hk
        rw [if_neg hacc] at hmem
        refine ⟨acceptedPrefix key, b, rest, ?_, ?_, acceptedKey_acceptedPrefix key, hb, hpre⟩
        · rw [← hsplit]; exact hmem
        · intro hnil
          rw [hnil] at hpre
          exact hw (List.prefix_nil.mp hpre)
  refine ⟨_, pt, h1, by simp, ?_, ?_⟩
  · intro hall w hw hfind
    rcases main w hw hfind with h | ⟨pre, b, rest, hmem, -⟩
    · exact h
    · have := hall (-1) (List.of_mem_zip hmem).2
      exact absurd this (by decide)
  · intro w hw hfind hno
    rcases main w hw hfind with ⟨s, hs⟩ | h
    · exact absurd (hno s) hs
    · exact h

theorem C14_every_node_leads_to_a_word_witness :
    (∃ rets pt, ptrie_add_all ptrie_allocate [[99, 97, 116], [99, 97]] = some (rets, pt) ∧
      (∀ r ∈ rets, r = 0) ∧
      ∀ w, w ≠ [] → ptrie_find pt.root w ≠ .NULL →
        ∃ s, nodeFlag (ptrie_find pt.root (w ++ s)) ≠ 0) ∧
    (∃ rets pt, ptrie_add_all ptrie_allocate [[97, 1]] = some (rets, pt) ∧
      ([97] : List CChar) ≠ [] ∧ ptrie_find pt.root [97] ≠ .NULL ∧
      (∀ s, nodeFlag (ptrie_find pt.root ([97] ++ s)) = 0) ∧
      ∃ pre b rest, (pre ++ b :: rest, -1) ∈ ([[97, 1]] : List (List CChar)).zip rets ∧
        pre ≠ [] ∧ (∀ c ∈ pre, 32 ≤ c.val ∧ c.val ≤ 127) ∧
        ¬ (32 ≤ b.val ∧ b.val ≤ 127) ∧ [97] <+: pre) := by
  constructor
  · obtain ⟨rets, pt, h1, -, h2, -⟩ :=
      C14_every_node_leads_to_a_word [[99, 97, 116], [99, 97]]
    have hall : ∀ r ∈ rets, r = 0 := by
      have hrets := (built_spec_of _ _ _ h1).1
      have hk1 : acceptedKey ([99, 97, 116] : List CChar) := by
        intro c hc; fin_cases hc <;> decide
      have hk2 : acceptedKey ([99, 97] : List CChar) := by
        intro c hc; fin_cases hc <;> decide
      rw [hrets]
      simp [hk1, hk2]
    exact ⟨rets, pt, h1, hall, h2 hall⟩
  · obtain ⟨rets, pt, h1, -, -, h3⟩ := C14_every_node_leads_to_a_word [[97, 1]]
    have hacc : accepted (97 : CChar) := by decide
    have hrej : ¬ accepted (1 : CChar) := by decide
    have hkey : ¬ acceptedKey ([97, 1] : List CChar) := fun h => hrej (h 1 (by simp))
    obtain ⟨pt0, h0, -, hn, -, hf⟩ := built_spec [[97, 1]]
    have hpt : pt0 = pt := by
      rw [h0] at h1
      exact (Prod.mk.inj (Option.some.inj h1)).2
    subst hpt
    have hw : ([97] : List CChar) ≠ [] := by simp
    have hfind : ptrie_find pt0.root [97] ≠ .NULL := by
      refine (hn [97]).mpr (Or.inr ⟨[97, 1], List.mem_singleton.mpr rfl, ?_⟩)
      have : acceptedPrefix ([97] ++ (1 : CChar) :: []) = [97] :=
        acceptedPrefix_append [97] 1 [] (by intro c hc; fin_cases hc; exact hacc) hrej
      rw [show ([97, 1] : List CChar) = [97] ++ (1 : CChar) :: [] from rfl, this]
    have hno : ∀ s, nodeFlag (ptrie_find pt0.root ([97] ++ s)) = 0 := by
      intro s
      by_contra h
      obtain ⟨hmem, hwacc⟩ := (hf _).mp h
      rw [List.mem_singleton.mp hmem] at hwacc
      exact hkey hwacc
    exact ⟨rets, pt0, h1, hw, hfind, hno, h3 [97] hw hfind hno⟩

/-- C14 as stated fails: the call `ptrie_add` of "a" followed by the character of code 1 on
a new trie returns -1 and leaves the node of "a", with no terminal node at or below it. -/
theorem C14_counterexample :
    ∃ pt, ptrie_add_all ptrie_allocate [[97, 1]] = some ([-1], pt) ∧
      ptrie_find pt.root [97] ≠ .NULL ∧
      ∀ s, nodeFlag (ptrie_find pt.root ([97] ++ s)) = 0 := by
  have hacc : accepted (97 : CChar) := by decide
  have hrej : ¬ accepted (1 : CChar) := by decide
  have hkey : ¬ acceptedKey ([97, 1] : List CChar) := fun h => hrej (h 1 (by simp))
  obtain ⟨pt, h1, -, hn, -, hf⟩ := built_spec [[97, 1]]
  refine ⟨pt, ?_, ?_, ?_⟩
  · simp only [h1, List.map_cons, List.map_nil, if_neg hkey]
  · refine (hn [97]).mpr (Or.inr ⟨[97, 1], List.mem_singleton.mpr rfl, ?_⟩)
    have : acceptedPrefix ([97] ++ (1 : CChar) :: []) = [97] :=
      acceptedPrefix_append [97] 1 [] (by intro c hc; fin_cases hc; exact hacc) hrej
    rw [show ([97, 1] : List CChar) = [97] ++ (1 : CChar) :: [] from rfl, this]
  · intro s
    by_contra h
    obtain ⟨hw, hwacc⟩ := (hf _).mp h
    rw [List.mem_singleton.mp hw] at hwacc
    exact hkey hwacc

/-- Two tries with the same paths, the same counts and the same flags are equal. -/
theorem ptrie_node_ext : ∀ n m : ptrie_node,
    (∀ w, (ptrie_find n w = .NULL ↔ ptrie_find m w = .NULL) ∧
      nodeCount (ptrie_find n w) = nodeCount (ptrie_find m w) ∧
      nodeFlag (ptrie_find n w) = nodeFlag (ptrie_find m w)) → n = m := by
  intro n
  induction n with
  | NULL =>
    intro m h
    have := (h []).1
    simp only [ptrie_find, true_iff] at this
    exact this.symm
  | node children count isEndOfWord ih =>
    intro m h
    cases m with
    | NULL =>
      have := (h []).1
      simp [ptrie_find] at this
    | node children2 count2 isEndOfWord2 =>
      have hc : count = count2 := by simpa [ptrie_find, nodeCount] using (h []).2.1
      have hf : isEndOfWord = isEndOfWord2 := by simpa [ptrie_find, nodeFlag] using (h []).2.2
      have hch : children = children2 := by
        funext i
        apply ih i
        intro w
        have := h (slotChar i :: w)
        simpa only [ptrie_find, childAt_slotChar] using this
      rw [hc, hf, hch]

theorem flag_update_comm (A B : Prop) [Decidable A] [Decidable B] (f : Int) :
    (if B then
        (if (if A then (if f = 0 then 1 else f) else f) = 0 then 1
          else (if A then (if f = 0 then 1 else f) else f))
      else (if A then (if f = 0 then 1 else f) else f)) =
    (if A then
        (if (if B then (if f = 0 then 1 else f) else f) = 0 then 1
          else (if B then (if f = 0 then 1 else f) else f))
      else (if B then (if f = 0 then 1 else f) else f)) := by
  by_cases ha : A <;> by_cases hb : B <;> by_cases hz : f = 0 <;> simp [ha, hb, hz]

theorem count_update_comm (A B : Prop) [Decidable A] [Decidable B] (c : Int) :
    (if B then int32 ((if A then int32 (c + 1) else c) + 1)
      else (if A then int32 (c + 1) else c)) =
    (if A then int32 ((if B then int32 (c + 1) else c) + 1)
      else (if B then int32 (c + 1) else c)) := by
  by_cases ha : A <;> by_cases hb : B <;> simp [ha, hb]

/-- C18: inserting `a` then `b` gives the same trie as inserting `b` then `a`, each call
returning the same value in both orders; hence two sequences of calls that are
permutations of each other give the same trie, and so the same `ptrie_autocomplete`
results. -/
theorem C18_insertion_order_does_not_matter (children : Fin 128 → ptrie_node)
    (count isEndOfWord : Int) (a b : List CChar) (calls1 calls2 : List (List CChar)) :
    (∃ ra rb p1 p2 t, ptrie_add ⟨.node children count isEndOfWord⟩ a = some (ra, p1) ∧
      ptrie_add p1 b = some (rb, t) ∧
      ptrie_add ⟨.node children count isEndOfWord⟩ b = some (rb, p2) ∧
      ptrie_add p2 a = some (ra, t)) ∧
    (calls1.Perm calls2 →
      ∃ r1 r2 t1 t2, ptrie_add_all ⟨.node children count isEndOfWord⟩ calls1 = some (r1, t1) ∧
        ptrie_add_all ⟨.node children count isEndOfWord⟩ calls2 = some (r2, t2) ∧
        t1 = t2 ∧ ∀ p, ptrie_autocomplete t1 p = ptrie_autocomplete t2 p) := by
  have hroot : (⟨.node children count isEndOfWord⟩ : ptrie).root ≠ .NULL := by simp
  constructor
  · obtain ⟨p1, h1, hr1, hn1, hc1, hf1⟩ := add_spec _ hroot a
    obtain ⟨t, h2, -, hn2, hc2, hf2⟩ := add_spec p1 hr1 b
    obtain ⟨p2, h3, hr3, hn3, hc3, hf3⟩ := add_spec _ hroot b
    obtain ⟨t', h4, -, hn4, hc4, hf4⟩ := add_spec p2 hr3 a
    have heq : t = t' := by
      cases t with
      | mk r =>
        cases t' with
        | mk r' =>
          congr 1
          apply ptrie_node_ext
          intro w
          refine ⟨?_, ?_, ?_⟩
          · rw [hn2 w, hn1 w, hn4 w, hn3 w]; tauto
          · rw [hc2 w, hc1 w, hc4 w, hc3 w]
            exact count_update_comm _ _ _
          · rw [hf2 w, hf1 w, hf4 w, hf3 w]
            exact flag_update_comm _ _ _
    rw [← heq] at h4
    exact ⟨_, _, p1, p2, t, h1, h2, h3, h4⟩
  · intro hperm
    obtain ⟨t1, h1, -, hn1, hc1, hf1⟩ := add_all_spec calls1 _ hroot
    obtain ⟨t2, h2, -, hn2, hc2, hf2⟩ := add_all_spec calls2 _ hroot
    have heq : t1 = t2 := by
      cases t1 with
      | mk r =>
        cases t2 with
        | mk r' =>
          congr 1
          apply ptrie_node_ext
          intro w
          refine ⟨?_, ?_, ?_⟩
          · rw [hn1 w, hn2 w]
            simp only [hperm.mem_iff]
          · rw [hc1 w, hc2 w, hperm.countP_eq]
          · rw [hf1 w, hf2 w]
            simp only [hperm.mem_iff]
    exact ⟨_, _, t1, t2, h1, h2, heq, fun p => by rw [heq]⟩

theorem C18_insertion_order_does_not_matter_witness :
    List.Perm ([[99, 97], [100]] : List (List CChar)) [[100], [99, 97]] ∧
    ∃ r1 r2 t1 t2, ptrie_add_all ⟨.node (fun _ => .NULL) 0 0⟩ [[99, 97], [100]] =
        some (r1, t1) ∧
      ptrie_add_all ⟨.node (fun _ => .NULL) 0 0⟩ [[100], [99, 97]] = some (r2, t2) ∧
      t1 = t2 ∧ ∀ p, ptrie_autocomplete t1 p = ptrie_autocomplete t2 p :=
  have h : List.Perm ([[99, 97], [100]] : List (List CChar)) [[100], [99, 97]] :=
    List.Perm.swap _ _ _
  ⟨h, (C18_insertion_order_does_not_matter (fun _ => .NULL) 0 0 [] [] _ _).2 h⟩

/-! ## Height and number of nodes -/

theorem foldl_max_le_iff {α : Type} (g : α → Nat) (l : List α) (a d : Nat) :
    l.foldl (fun m i => max m (g i)) a ≤ d ↔ a ≤ d ∧ ∀ i ∈ l, g i ≤ d := by
  induction l generalizing a with
  | nil => simp
  | cons x l ih =>
    rw [List.foldl_cons, ih]
    simp only [List.mem_cons, forall_eq_or_imp, max_le_iff]
    tauto

theorem height_node (children : Fin 128 → ptrie_node) (count isEndOfWord : Int) :
    (ptrie_node.node children count isEndOfWord).height =
      (List.finRange 128).foldl
        (fun m i => max m (if (children i).isNull then 0 else (children i).height + 1)) 0 :=
  rfl

theorem size_node (children : Fin 128 → ptrie_node) (count isEndOfWord : Int) :
    (ptrie_node.node children count isEndOfWord).size =
      1 + ((List.finRange 128).map fun i => (children i).size).sum :=
  rfl

/-- The height bounds the length of every path, and is the least such bound. -/
theorem height_le_iff : ∀ (n : ptrie_node) (d : Nat),
    n.height ≤ d ↔ ∀ w, ptrie_find n w ≠ .NULL → w.length ≤ d := by
  intro n
  induction n with
  | NULL =>
    intro d
    simp [ptrie_node.height, ptrie_find_NULL]
  | node children count isEndOfWord ih =>
    intro d
    rw [height_node, foldl_max_le_iff]
    constructor
    · rintro ⟨-, h⟩ w hw
      cases w with
      | nil => simp
      | cons c w =>
        have hc : c.val < 128 := by
          by_contra hc
          simp [ptrie_find, childAt, childSlot_of_ge c (by omega), ptrie_find_NULL] at hw
        simp only [ptrie_find, childAt_node_accepted children count isEndOfWord c hc] at hw
        have hne : children ⟨c.val, hc⟩ ≠ .NULL := by
          intro h0; rw [h0, ptrie_find_NULL] at hw; exact hw rfl
        have h1 := h ⟨c.val, hc⟩ (List.mem_finRange _)
        rw [if_neg (fun h0 => hne ((isNull_iff _).mp h0))] at h1
        have h2 := (ih ⟨c.val, hc⟩ (d - 1)).mp (by omega) w hw
        simp only [List.length_cons]
        omega
    · intro h
      refine ⟨Nat.zero_le _, fun i _ => ?_⟩
      by_cases hn : (children i).isNull = true
      · rw [if_pos hn]; exact Nat.zero_le _
      · rw [if_neg hn]
        have hne : children i ≠ .NULL := fun h0 => hn ((isNull_iff _).mpr h0)
        have h1 := h [slotChar i] (by simpa [ptrie_find, childAt_slotChar] using hne)
        simp only [List.length_singleton] at h1
        have h2 := (ih i (d - 1)).mpr (by
          intro w hw
          have := h (slotChar i :: w) (by simpa [ptrie_find, childAt_slotChar] using hw)
          simp only [List.length_cons] at this
          omega)
        omega

theorem length_le_longestKey (calls : List (List CChar)) (key : List CChar)
    (h : key ∈ calls) : key.length ≤ longestKey calls := by
  induction calls with
  | nil => simp at h
  | cons k calls ih =>
    simp only [longestKey, List.map_cons, List.foldr_cons]
    rcases List.mem_cons.mp h with rfl | h
    · exact le_max_left _ _
    · exact le_trans (ih h) (le_max_right _ _)

theorem sum_map_update (f : Fin 128 → Nat) (i : Fin 128) (x : Nat) :
    ((List.finRange 128).map (Function.update f i x)).sum + f i =
      ((List.finRange 128).map f).sum + x := by
  rw [← Fin.sum_univ_def, ← Fin.sum_univ_def,
    Finset.sum_update_of_mem (Finset.mem_univ i), Finset.sdiff_singleton_eq_erase,
    ← Finset.add_sum_erase Finset.univ f (Finset.mem_univ i)]
  omega

theorem size_update (children : Fin 128 → ptrie_node) (count isEndOfWord : Int)
    (i : Fin 128) (m : ptrie_node) :
    (ptrie_node.node (Function.update children i m) count isEndOfWord).size +
        (children i).size =
      (ptrie_node.node children count isEndOfWord).size + m.size := by
  have h : (fun j => (Function.update children i m j).size) =
      Function.update (fun j => (children j).size) i m.size := by
    funext j
    by_cases hj : j = i
    · subst hj; simp
    · simp [Function.update_noteq hj]
  have := sum_map_update (fun j => (children j).size) i m.size
  rw [size_node, size_node, h]
  omega

theorem size_createNode : ptrie_createNode.size = 1 := by
  have : ∀ l : List (Fin 128), (l.map fun _ => ptrie_node.size ptrie_node.NULL).sum = 0 := by
    intro l
    induction l with
    | nil => rfl
    | cons a l ih => simp [ptrie_node.size]
  rw [ptrie_createNode, size_node, this]

theorem size_childOrNew (n : ptrie_node) :
    n.size ≤ (childOrNew n).size ∧ (childOrNew n).size ≤ n.size + 1 := by
  cases n with
  | NULL =>
    have : childOrNew .NULL = ptrie_createNode := rfl
    rw [this, size_createNode]
    simp [ptrie_node.size]
  | node children count isEndOfWord =>
    have : childOrNew (.node children count isEndOfWord) = .node children count isEndOfWord :=
      rfl
    rw [this]
    omega

/-- One `ptrie_add` removes no node and creates at most as many nodes as the key has
characters. -/
theorem add_loop_size (key : List CChar) : ∀ (n : ptrie_node) (r : Int) (n' : ptrie_node),
    ptrie_add_loop n key = some (r, n') → n.size ≤ n'.size ∧ n'.size ≤ n.size + key.length := by
  induction key with
  | nil =>
    intro n r n' h
    cases n with
    | NULL =>
      have h0 : ptrie_add_loop .NULL [] = none := rfl
      rw [h0] at h
      cases h
    | node children count isEndOfWord =>
      rw [add_loop_nil_node] at h
      simp only [Option.some.injEq, Prod.mk.injEq] at h
      rw [← h.2, size_node, size_node]
      simp
  | cons c rest ih =>
    intro n r n' h
    by_cases hc : accepted c
    · cases n with
      | NULL =>
        rw [add_loop_cons, if_neg (isValidChar_of_accepted hc)] at h
        simp at h
      | node children count isEndOfWord =>
        have hlt : c.val < 128 := by unfold accepted at hc; omega
        rw [add_loop_cons_accepted children count isEndOfWord rest hc] at h
        obtain ⟨q, hq, hq2⟩ := Option.map_eq_some'.mp h
        simp only [Prod.mk.injEq] at hq2
        have h1 := ih _ q.1 q.2 hq
        have h2 := size_childOrNew (children ⟨c.val, hlt⟩)
        have h3 := size_update children count isEndOfWord ⟨c.val, hlt⟩ q.2
        rw [← hq2.2]
        simp only [List.length_cons]
        omega
    · rw [add_loop_cons_rejected n rest hc] at h
      simp only [Option.some.injEq, Prod.mk.injEq] at h
      rw [← h.2]
      omega

/-- C16: in a trie built from a new trie by `ptrie_add` calls, the height of the tree
(the length of its longest path from the root) is at most the length of the longest key
passed to `ptrie_add`; and one `ptrie_add` of a key `k`, on any trie, removes no node and
creates at most `length k` new nodes. -/
theorem C16_height_and_new_nodes_bounded_by_key_length (calls : List (List CChar))
    (children : Fin 128 → ptrie_node) (count isEndOfWord : Int) (key : List CChar) :
    (∃ rets pt, ptrie_add_all ptrie_allocate calls = some (rets, pt) ∧
      pt.root.height ≤ longestKey calls) ∧
    (∃ r pt', ptrie_add ⟨.node children count isEndOfWord⟩ key = some (r, pt') ∧
      (ptrie_node.node children count isEndOfWord).size ≤ pt'.root.size ∧
      pt'.root.size ≤ (ptrie_node.node children count isEndOfWord).size + key.length) := by
  constructor
  · obtain ⟨pt, h1, -, hn, -, -⟩ := built_spec calls
    refine ⟨_, pt, h1, (height_le_iff _ _).mpr fun w hw => ?_⟩
    rcases (hn w).mp hw with rfl | ⟨k, hk, hpre⟩
    · simp
    · exact le_trans hpre.length_le
        (le_trans (acceptedPrefix_isPrefix k).length_le (length_le_longestKey calls k hk))
  · obtain ⟨pt', h, -⟩ := add_spec ⟨.node children count isEndOfWord⟩ (by simp) key
    have h' : ptrie_add_loop (.node children count isEndOfWord) key =
        some (if acceptedKey key then 0 else -1, pt'.root) := by
      unfold ptrie_add at h
      obtain ⟨q, hq, hq2⟩ := Option.map_eq_some'.mp h
      simp only [Prod.mk.injEq] at hq2
      rw [hq, ← hq2.1, ← hq2.2]
    exact ⟨_, pt', h, add_loop_size key _ _ _ h'⟩

/-! ## What `ptrie_autocomplete` returns when it returns a string -/

theorem foldl_bind_none {α β : Type} (g : β → α → Option α) (l : List β) :
    l.foldl (fun acc i => acc.bind (g i)) none = none := by
  induction l with
  | nil => rfl
  | cons x l ih => simpa using ih

/-- When `ptrie_autocompleteHelper` stays within the buffer, it has folded `pickBest` over
the terminal nodes of the subtree, in traversal order. -/
theorem helper_some_eq_foldl : ∀ (n : ptrie_node) (pfx : List CChar) (best b : BestSoFar),
    ptrie_autocompleteHelper n pfx best = some b →
    b = (completions n pfx).foldl pickBest best := by
  intro n
  induction n with
  | NULL =>
    intro pfx best b h
    have h0 : ptrie_autocompleteHelper .NULL pfx best = some best := rfl
    rw [h0] at h
    simp only [Option.some.injEq] at h
    rw [← h]; rfl
  | node children count isEndOfWord ih =>
    intro pfx best b
    rw [helper_node, completions_node, List.foldl_append]
    have hfirst : (if isEndOfWord ≠ 0 ∧ count > best.2 then (some pfx, count) else best) =
        List.foldl pickBest best (if isEndOfWord ≠ 0 then [(pfx, count)] else []) := by
      by_cases he : isEndOfWord ≠ 0
      · simp [he, pickBest]
      · simp [he]
    rw [hfirst]
    generalize List.foldl pickBest best (if isEndOfWord ≠ 0 then [(pfx, count)] else []) = b0
    generalize List.finRange 128 = l
    induction l generalizing b0 with
    | nil =>
      intro h
      simp only [List.foldl_nil, Option.some.injEq] at h
      rw [← h]; rfl
    | cons i l ihl =>
      rw [List.foldl_cons, List.flatMap_cons, List.foldl_append, Option.some_bind]
      by_cases hn : (children i).isNull = true
      · rw [if_pos hn, (isNull_iff _).mp hn]
        exact ihl b0
      · rw [if_neg hn]
        by_cases hlt : pfx.length + 1 < 128
        · rw [if_pos hlt]
          cases hh : ptrie_autocompleteHelper (children i) (nextPrefix pfx i) b0 with
          | none =>
            intro h
            rw [foldl_bind_none] at h
            cases h
          | some b1 =>
            rw [← ih i _ _ _ hh]
            exact ihl b1
        · rw [if_neg hlt]
          intro h
          rw [foldl_bind_none] at h
          cases h

/-- When the first loop of `ptrie_autocomplete` reaches a node, every character of the
prefix is accepted and the node is the node of the prefix. -/
theorem walk_reached (p : List CChar) : ∀ n cur : ptrie_node,
    ptrie_autocomplete_walk n p = some (.reached cur) → cur = ptrie_find n p ∧ acceptedKey p := by
  induction p with
  | nil =>
    intro n cur h
    have h0 : ptrie_autocomplete_walk n [] = some (.reached n) := rfl
    rw [h0] at h
    simp only [Option.some.injEq, WalkEnd.reached.injEq] at h
    exact ⟨h.symm, fun c hc => by simp at hc⟩
  | cons c p ih =>
    intro n cur h
    rw [walk_cons] at h
    by_cases hv : ptrie_isValidChar c = 0
    · rw [if_pos hv] at h; cases h
    · rw [if_neg hv] at h
      have hc : accepted c := not_not.mp fun hx => hv ((isValidChar_eq_zero_iff c).mpr hx)
      have hlt : c.val < 128 := by unfold accepted at hc; omega
      cases n with
      | NULL => simp at h
      | node children count isEndOfWord =>
        simp only [childSlot_of_lt c hlt] at h
        by_cases hn : (children ⟨c.val, hlt⟩).isNull = true
        · rw [if_pos hn] at h; cases h
        · rw [if_neg hn] at h
          obtain ⟨h1, h2⟩ := ih _ cur h
          refine ⟨?_, ?_⟩
          · rw [h1, ptrie_find, childAt_node_accepted children count isEndOfWord c hlt]
          · intro d hd
            rcases List.mem_cons.mp hd with rfl | hd
            · exact hc
            · exact h2 d hd

/-- A string returned by `ptrie_autocomplete` is the prefix itself or the string of the
first entry of greatest count of the traversal under the node of the prefix. -/
theorem autocomplete_some_cases (pt : ptrie) (p r : List CChar)
    (h : ptrie_autocomplete pt p = some (some r)) :
    r = p ∨ ∃ A e B, acceptedKey p ∧ completions (ptrie_find pt.root p) p = A ++ e :: B ∧
      e.1 = r ∧ (∀ x ∈ A, x.2 < e.2) ∧ ∀ x ∈ B, x.2 ≤ e.2 := by
  unfold ptrie_autocomplete at h
  cases hw : ptrie_autocomplete_walk pt.root p with
  | none => rw [hw] at h; cases h
  | some e =>
    rw [hw] at h
    cases e with
    | invalid => simp at h
    | missing =>
      simp only [Option.some.injEq] at h
      exact Or.inl h.symm
    | reached cur =>
      obtain ⟨hcur, hacc⟩ := walk_reached p pt.root cur hw
      simp only at h
      by_cases hlen : p.length + 1 ≤ 128
      · rw [if_pos hlen] at h
        cases hh : ptrie_autocompleteHelper cur p (none, -1) with
        | none => rw [hh] at h; cases h
        | some b =>
          rw [hh] at h
          have hb := helper_some_eq_foldl cur p _ b hh
          rcases b with ⟨res, f⟩
          cases res with
          | none =>
            simp only [Option.some.injEq] at h
            exact Or.inl h.symm
          | some r' =>
            simp only [Option.some.injEq] at h
            right
            rw [hcur] at hb
            rcases foldl_pickBest_spec (completions (ptrie_find pt.root p) p) (none, -1) with
              ⟨h1, -⟩ | ⟨A, e, B, h1, h2, -, h4, h5⟩
            · rw [h1] at hb
              cases hb
            · rw [h2] at hb
              simp only [Prod.mk.injEq, Option.some.injEq] at hb
              exact ⟨A, e, B, hacc, h1, by rw [← hb.1, h], h4, h5⟩
      · rw [if_neg hlen] at h; cases h

/-- C13: a string `r` returned by `ptrie_autocomplete` for the prefix `p` starts with `p`;
and in a trie whose paths are made of accepted characters, as are those of every trie
built by `ptrie_add` calls, a result other than `p` is the string spelled by the path of
a terminal node, the one selected by the traversal (the first of greatest count). -/
theorem C13_result_extends_the_prefix (children : Fin 128 → ptrie_node)
    (count isEndOfWord : Int) (p r : List CChar) (calls : List (List CChar)) :
    (ptrie_autocomplete ⟨.node children count isEndOfWord⟩ p = some (some r) → p <+: r) ∧
    ((∀ w, ptrie_find (.node children count isEndOfWord) w ≠ .NULL → acceptedKey w) →
      ptrie_autocomplete ⟨.node children count isEndOfWord⟩ p = some (some r) → r ≠ p →
      nodeFlag (ptrie_find (.node children count isEndOfWord) r) ≠ 0 ∧
      ∃ A B, completions (ptrie_find (.node children count isEndOfWord) p) p =
          A ++ (r, nodeCount (ptrie_find (.node children count isEndOfWord) r)) :: B ∧
        (∀ x ∈ A, x.2 < nodeCount (ptrie_find (.node children count isEndOfWord) r)) ∧
        ∀ x ∈ B, x.2 ≤ nodeCount (ptrie_find (.node children count isEndOfWord) r)) ∧
    (∃ rets pt, ptrie_add_all ptrie_allocate calls = some (rets, pt) ∧
      ∀ w, ptrie_find pt.root w ≠ .NULL → acceptedKey w) := by
  refine ⟨?_, ?_, ?_⟩
  · intro h
    rcases autocomplete_some_cases _ p r h with rfl | ⟨A, e, B, -, h1, h2, -⟩
    · exact List.prefix_refl _
    · have he : e ∈ completions (ptrie_find (.node children count isEndOfWord) p) p := by
        rw [h1]; simp
      obtain ⟨s, -, -, h3⟩ := completions_sound _ _ e he
      rw [← h2]; exact h3
  · intro hv h hne
    rcases autocomplete_some_cases _ p r h with rfl | ⟨A, e, B, -, h1, h2, h4, h5⟩
    · exact absurd rfl hne
    · have he : e ∈ completions (ptrie_find (.node children count isEndOfWord) p) p := by
        rw [h1]; simp
      have hvc : ∀ w, ptrie_find (ptrie_find (.node children count isEndOfWord) p) w ≠ .NULL →
          acceptedKey w := by
        intro w hw c hc
        rw [← ptrie_find_append] at hw
        exact hv _ hw c (List.mem_append_right _ hc)
      obtain ⟨s, hs1, hs2, hs3⟩ := (mem_completions_iff _ p e hvc).mp he
      rw [← ptrie_find_append, ← hs1, h2] at hs2 hs3
      have hee : e = (r, nodeCount (ptrie_find (.node children count isEndOfWord) r)) := by
        ext <;> simp [h2, hs3]
      rw [hee] at h1 h4 h5
      exact ⟨hs2, A, B, h1, h4, h5⟩
  · obtain ⟨pt, h1, -, hn, -, -⟩ := built_spec calls
    exact ⟨_, pt, h1, built_paths_accepted calls pt hn⟩

set_option maxRecDepth 1000000 in
theorem C13_result_extends_the_prefix_witness :
    ∃ rets pt, ptrie_add_all ptrie_allocate [[99, 97, 116], [99, 97, 114]] = some (rets, pt) ∧
      (∀ w, ptrie_find pt.root w ≠ .NULL → acceptedKey w) ∧
      ptrie_autocomplete pt [99, 97] = some (some [99, 97, 114]) ∧
      [99, 97] <+: ([99, 97, 114] : List CChar) ∧
      nodeFlag (ptrie_find pt.root [99, 97, 114]) ≠ 0 := by
  obtain ⟨pt, h1, hroot, hn, -, -⟩ := built_spec [[99, 97, 116], [99, 97, 114]]
  have hv := built_paths_accepted _ pt hn
  have hd : ((ptrie_add_all ptrie_allocate [[99, 97, 116], [99, 97, 114]]).bind
      fun q => ptrie_autocomplete q.2 [99, 97]) = some (some [99, 97, 114]) := by decide
  rw [h1, Option.some_bind] at hd
  rcases pt with ⟨root⟩
  cases root with
  | NULL => exact absurd rfl hroot
  | node children count isEndOfWord =>
    have hC := C13_result_extends_the_prefix children count isEndOfWord [99, 97]
      [99, 97, 114] []
    exact ⟨_, _, h1, hv, hd, hC.1 hd, (hC.2.1 hv hd (by decide)).1⟩

/-! ## The buffers of the lookup -/

theorem helper_unbounded_node (children : Fin 128 → ptrie_node) (count isEndOfWord : Int)
    (pfx : List CChar) (best : BestSoFar) :
    ptrie_autocompleteHelper_unbounded (.node children count isEndOfWord) pfx best =
      (List.finRange 128).foldl
        (fun b i =>
          if (children i).isNull then b
          else ptrie_autocompleteHelper_unbounded (children i) (nextPrefix pfx i) b)
        (if isEndOfWord ≠ 0 ∧ count > best.2 then (some pfx, count) else best) :=
  rfl

theorem helper_writes_node (children : Fin 128 → ptrie_node) (count isEndOfWord : Int)
    (pfx : List CChar) :
    ptrie_autocompleteHelper_writes (.node children count isEndOfWord) pfx =
      (List.finRange 128).flatMap fun i =>
        if (children i).isNull then []
        else
          List.range (pfx.length + 1) ++ [pfx.length, pfx.length + 1] ++
            ptrie_autocompleteHelper_writes (children i) (nextPrefix pfx i) :=
  rfl

/-- With buffers that no string outgrows, the helper folds `pickBest` over the terminal
nodes of the subtree, in traversal order. -/
theorem helper_unbounded_eq_foldl : ∀ (n : ptrie_node) (pfx : List CChar) (best : BestSoFar),
    ptrie_autocompleteHelper_unbounded n pfx best = (completions n pfx).foldl pickBest best := by
  intro n
  induction n with
  | NULL => intro pfx best; rfl
  | node children count isEndOfWord ih =>
    intro pfx best
    rw [helper_unbounded_node, completions_node, List.foldl_append]
    have hfirst : (if isEndOfWord ≠ 0 ∧ count > best.2 then (some pfx, count) else best) =
        List.foldl pickBest best (if isEndOfWord ≠ 0 then [(pfx, count)] else []) := by
      by_cases he : isEndOfWord ≠ 0
      · simp [he, pickBest]
      · simp [he]
    rw [hfirst]
    generalize List.foldl pickBest best (if isEndOfWord ≠ 0 then [(pfx, count)] else []) = b0
    generalize List.finRange 128 = l
    induction l generalizing b0 with
    | nil => rfl
    | cons i l ihl =>
      rw [List.foldl_cons, List.flatMap_cons, List.foldl_append]
      by_cases hn : (children i).isNull = true
      · rw [if_pos hn, (isNull_iff _).mp hn]
        exact ihl b0
      · rw [if_neg hn, ih i]
        exact ihl _

/-- Every index that the helper writes is at most one more than the length of the longest
path string it builds. -/
theorem helper_writes_le : ∀ (n : ptrie_node) (pfx : List CChar),
    (∀ w, ptrie_find n w ≠ .NULL → pfx.length + w.length ≤ 127) →
    ∀ k ∈ ptrie_autocompleteHelper_writes n pfx, k ≤ 127 := by
  intro n
  induction n with
  | NULL => intro pfx _ k hk; simp [ptrie_autocompleteHelper_writes] at hk
  | node children count isEndOfWord ih =>
    intro pfx hb k hk
    rw [helper_writes_node, List.mem_flatMap] at hk
    obtain ⟨i, -, hi⟩ := hk
    by_cases hn : (children i).isNull = true
    · rw [if_pos hn] at hi; simp at hi
    · rw [if_neg hn] at hi
      have hne : children i ≠ .NULL := fun h => hn ((isNull_iff _).mpr h)
      have h1 := hb [slotChar i] (by simpa [ptrie_find, childAt_slotChar] using hne)
      simp only [List.length_singleton] at h1
      rcases List.mem_append.mp hi with hi | hi
      · rcases List.mem_append.mp hi with hi | hi
        · have := List.mem_range.mp hi
          omega
        · simp only [List.mem_cons, List.mem_singleton, List.not_mem_nil, or_false] at hi
          omega
      · refine ih i (nextPrefix pfx i) ?_ k hi
        intro w hw
        have h2 := hb (slotChar i :: w) (by simpa [ptrie_find, childAt_slotChar] using hw)
        have h3 := nextPrefix_length_le pfx i
        simp only [List.length_cons] at h2
        omega

/-- C15: in a trie whose paths from the root have at most 127 characters, for a prefix of
accepted characters of length at most 127, every index written into the 128-byte buffers
`prefix` and `nextPrefix` by `ptrie_autocomplete` and `ptrie_autocompleteHelper`,
the terminating zero at `prefixLen + 1` included, is at most 127; `ptrie_autocomplete`
returns a string, the one it returns with buffers that no string outgrows. -/
theorem C15_autocomplete_stays_within_its_buffers (children : Fin 128 → ptrie_node)
    (count isEndOfWord : Int) (p : List CChar)
    (hpaths : (ptrie_node.node children count isEndOfWord).height ≤ 127)
    (hp : acceptedKey p) (hlen : p.length ≤ 127) :
    (∀ k ∈ ptrie_autocomplete_writes ⟨.node children count isEndOfWord⟩ p, k ≤ 127) ∧
    ptrie_autocomplete ⟨.node children count isEndOfWord⟩ p =
      ptrie_autocomplete_unbounded ⟨.node children count isEndOfWord⟩ p ∧
    ∃ r, ptrie_autocomplete ⟨.node children count isEndOfWord⟩ p = some (some r) := by
  have hb := (height_le_iff _ _).mp hpaths
  have hroot : (⟨.node children count isEndOfWord⟩ : ptrie).root ≠ .NULL := by simp
  obtain ⟨hmiss, hreach⟩ := walk_accepted p _ hroot hp
  have hbelow : ∀ w, ptrie_find (ptrie_find (.node children count isEndOfWord) p) w ≠ .NULL →
      p.length + w.length ≤ 127 := by
    intro w hw
    rw [← ptrie_find_append] at hw
    simpa using hb _ hw
  have heq := autocomplete_eq_foldl ⟨.node children count isEndOfWord⟩ p hroot hp
    (fun s hs => hb _ hs)
  refine ⟨?_, ?_, _, heq⟩
  · intro k hk
    unfold ptrie_autocomplete_writes at hk
    by_cases hnull : ptrie_find (.node children count isEndOfWord) p = .NULL
    · rw [hmiss hnull] at hk; simp at hk
    · rw [hreach hnull] at hk
      rcases List.mem_append.mp hk with hk | hk
      · rcases List.mem_append.mp hk with hk | hk
        · have := List.mem_range.mp hk
          omega
        · have := List.mem_range.mp hk
          omega
      · exact helper_writes_le _ p hbelow k hk
  · rw [heq]
    unfold ptrie_autocomplete_unbounded
    by_cases hnull : ptrie_find (.node children count isEndOfWord) p = .NULL
    · rw [hmiss hnull]
      simp [hnull, completions]
    · rw [hreach hnull]
      simp only [helper_unbounded_eq_foldl]
      rcases hres : (completions (ptrie_find (.node children count isEndOfWord) p) p).foldl
        pickBest (none, -1) with ⟨r, f⟩
      cases r <;> simp

set_option maxRecDepth 1000000 in
theorem C15_autocomplete_stays_within_its_buffers_witness :
    (ptrie_node.node (Function.update (fun _ => .NULL) 120 (.node (fun _ => .NULL) 1 1))
      0 0).height ≤ 127 ∧
    acceptedKey [120] ∧ ([120] : List CChar).length ≤ 127 ∧
    (∀ k ∈ ptrie_autocomplete_writes
        ⟨.node (Function.update (fun _ => .NULL) 120 (.node (fun _ => .NULL) 1 1)) 0 0⟩ [120],
      k ≤ 127) ∧
    ptrie_autocomplete
        ⟨.node (Function.update (fun _ => .NULL) 120 (.node (fun _ => .NULL) 1 1)) 0 0⟩ [120] =
      ptrie_autocomplete_unbounded
        ⟨.node (Function.update (fun _ => .NULL) 120 (.node (fun _ => .NULL) 1 1)) 0 0⟩ [120] ∧
    ∃ r, ptrie_autocomplete
        ⟨.node (Function.update (fun _ => .NULL) 120 (.node (fun _ => .NULL) 1 1)) 0 0⟩ [120] =
      some (some r) :=
  have h1 : (ptrie_node.node (Function.update (fun _ => .NULL) 120
      (.node (fun _ => .NULL) 1 1)) 0 0).height ≤ 127 := by decide
  have h2 : acceptedKey [120] := by intro c hc; fin_cases hc; decide
  ⟨h1, h2, by simp,
    C15_autocomplete_stays_within_its_buffers _ 0 0 [120] h1 h2 (by simp)⟩

/-! ## Enumeration -/

theorem printHelper_node (children : Fin 128 → ptrie_node) (count isEndOfWord : Int)
    (buffer : List CChar) :
    ptrie_printHelper (.node children count isEndOfWord) buffer =
      (List.finRange 128).foldl
        (fun acc i => acc.bind fun out =>
          if (children i).isNull then some out
          else if buffer.length < 256 then
            (ptrie_printHelper (children i) (buffer ++ [slotChar i])).map fun more =>
              out ++ more
          else none)
        (if isEndOfWord ≠ 0 then
          if buffer.length < 256 then some [(cString buffer, count)] else none
        else some []) :=
  rfl

theorem printEntries_node (children : Fin 128 → ptrie_node) (count isEndOfWord : Int)
    (buffer : List CChar) :
    printEntries (.node children count isEndOfWord) buffer =
      (if isEndOfWord ≠ 0 then [(cString buffer, count)] else []) ++
        (List.finRange 128).flatMap fun i =>
          printEntries (children i) (buffer ++ [slotChar i]) :=
  rfl

/-- Within the 256 bytes of the buffer, `ptrie_printHelper` prints the entries of
`printEntries`. -/
theorem printHelper_eq_entries : ∀ (n : ptrie_node) (buffer : List CChar), n ≠ .NULL →
    (∀ w, ptrie_find n w ≠ .NULL → buffer.length + w.length ≤ 255) →
    ptrie_printHelper n buffer = some (printEntries n buffer) := by
  intro n
  induction n with
  | NULL => intro buffer h; exact absurd rfl h
  | node children count isEndOfWord ih =>
    intro buffer _ hb
    have hlen : buffer.length < 256 := by
      have := hb [] (by simp [ptrie_find])
      simp only [List.length_nil] at this
      omega
    rw [printHelper_node, printEntries_node]
    have hfirst : (if isEndOfWord ≠ 0 then
          if buffer.length < 256 then some [(cString buffer, count)] else none
        else some []) =
        some (if isEndOfWord ≠ 0 then [(cString buffer, count)] else []) := by
      by_cases he : isEndOfWord ≠ 0
      · rw [if_pos he, if_pos hlen, if_pos he]
      · rw [if_neg he, if_neg he]
    rw [hfirst]
    generalize (if isEndOfWord ≠ 0 then [(cString buffer, count)] else []) = out0
    generalize List.finRange 128 = l
    induction l generalizing out0 with
    | nil => simp
    | cons i l ihl =>
      rw [List.foldl_cons, List.flatMap_cons, Option.some_bind, ← List.append_assoc]
      by_cases hn : (children i).isNull = true
      · rw [if_pos hn, (isNull_iff _).mp hn]
        have h0 : printEntries .NULL (buffer ++ [slotChar i]) = [] := rfl
        rw [h0, List.append_nil]
        exact ihl out0
      · have hne : children i ≠ .NULL := fun h => hn ((isNull_iff _).mpr h)
        rw [if_neg hn, if_pos hlen, ih i _ hne ?_, Option.map_some']
        · exact ihl _
        · intro w hw
          have h2 := hb (slotChar i :: w) (by simpa [ptrie_find, childAt_slotChar] using hw)
          simp only [List.length_cons] at h2
          simp only [List.length_append, List.length_singleton]
          omega

theorem cString_of_nonzero (bytes : List CChar) (h : ∀ c ∈ bytes, c ≠ 0) :
    cString bytes = bytes := by
  induction bytes with
  | nil => rfl
  | cons c bytes ih =>
    have hc : c ≠ 0 := h c (List.mem_cons_self _ _)
    simp only [cString, List.takeWhile_cons, hc, ne_eq, not_false_eq_true, decide_True, if_true,
      List.cons.injEq, true_and]
    exact ih fun d hd => h d (List.mem_cons_of_mem _ hd)

theorem accepted_ne_zero {c : CChar} (h : accepted c) : c ≠ 0 := by
  intro h0
  rw [h0] at h
  exact absurd h (by decide)

/-- In a trie whose paths are made of accepted characters, the entries printed are those
that the traversal of the lookup meets, in the same order. -/
theorem printEntries_eq_completions : ∀ (n : ptrie_node) (buffer : List CChar),
    (∀ w, ptrie_find n w ≠ .NULL → acceptedKey w) → (∀ c ∈ buffer, c ≠ 0) →
    printEntries n buffer = completions n buffer := by
  intro n
  induction n with
  | NULL => intro buffer _ _; rfl
  | node children count isEndOfWord ih =>
    intro buffer hv hz
    rw [printEntries_node, completions_node, cString_of_nonzero buffer hz]
    congr 1
    congr 1
    funext i
    by_cases hn : children i = .NULL
    · rw [hn]; rfl
    · have hacc : accepted (slotChar i) :=
        hv [slotChar i] (by simpa [ptrie_find, childAt_slotChar] using hn) _
          (List.mem_singleton.mpr rfl)
      rw [nextPrefix_of_accepted buffer i hacc]
      apply ih i
      · intro w hw c hc
        exact hv (slotChar i :: w) (by simpa [ptrie_find, childAt_slotChar] using hw) c
          (List.mem_cons_of_mem _ hc)
      · intro c hc
        rcases List.mem_append.mp hc with h | h
        · exact hz c h
        · rw [List.mem_singleton.mp h]; exact accepted_ne_zero hacc

/-- The paths of a trie built from keys of at most `d` characters have at most `d`. -/
theorem built_paths_le (d : Nat) (calls : List (List CChar)) (pt : ptrie)
    (hlen : ∀ key ∈ calls, key.length ≤ d)
    (hn : ∀ w, ptrie_find pt.root w ≠ .NULL ↔
      (w = [] ∨ ∃ key ∈ calls, w <+: acceptedPrefix key))
    (w : List CChar) (hw : ptrie_find pt.root w ≠ .NULL) : w.length ≤ d := by
  rcases (hn w).mp hw with rfl | ⟨key, hk, hpre⟩
  · simp
  · have h1 := hpre.length_le
    have h2 := (acceptedPrefix_isPrefix key).length_le
    have h3 := hlen key hk
    omega

/-- C11: for a trie built by `ptrie_add` calls with keys shorter than the 256 bytes of the
print buffer, `ptrie_print` emits, for each terminal node and for nothing else, one entry
that carries the string of the path of the node and its count, and the entries come in
strictly ascending lexicographic order of their strings (a word before its extensions). -/
theorem C11_print_lists_every_word_once_in_order (calls : List (List CChar))
    (hlen : ∀ key ∈ calls, key.length < 256) :
    ∃ rets pt out, ptrie_add_all ptrie_allocate calls = some (rets, pt) ∧
      ptrie_print pt = some out ∧
      (∀ w c, (w, c) ∈ out ↔
        (nodeFlag (ptrie_find pt.root w) ≠ 0 ∧ c = nodeCount (ptrie_find pt.root w))) ∧
      out.Pairwise (fun a b => List.Lex (· < ·) a.1 b.1) ∧
      (out.map Prod.fst).Nodup := by
  obtain ⟨pt, h1, hroot, hn, -, -⟩ := built_spec calls
  have hv := built_paths_accepted calls pt hn
  have hb := built_paths_le 255 calls pt (fun key hk => by have := hlen key hk; omega) hn
  have hprint : ptrie_print pt = some (completions pt.root []) := by
    unfold ptrie_print
    rw [printHelper_eq_entries pt.root [] hroot (by simpa using hb),
      printEntries_eq_completions pt.root [] hv (by simp)]
  have hsorted := completions_sorted pt.root [] hv
  refine ⟨_, pt, _, h1, hprint, ?_, hsorted, ?_⟩
  · intro w c
    rw [mem_completions_iff pt.root [] (w, c) hv]
    constructor
    · rintro ⟨s, h2, h3, h4⟩
      simp only [List.nil_append] at h2
      subst h2
      exact ⟨h3, h4⟩
    · rintro ⟨h3, h4⟩
      exact ⟨w, by simp, h3, h4⟩
  · rw [List.Nodup, List.pairwise_map]
    refine List.Pairwise.imp ?_ hsorted
    intro a b hlex heq
    rw [heq] at hlex
    have := not_lex_append_self b.1 []
    rw [List.append_nil] at this
    exact this hlex

theorem C11_print_lists_every_word_once_in_order_witness :
    (∀ key ∈ ([[99, 97, 116], [99, 97], [99, 97]] : List (List CChar)), key.length < 256) ∧
    ∃ rets pt out, ptrie_add_all ptrie_allocate [[99, 97, 116], [99, 97], [99, 97]] =
        some (rets, pt) ∧
      ptrie_print pt = some out ∧
      (∀ w c, (w, c) ∈ out ↔
        (nodeFlag (ptrie_find pt.root w) ≠ 0 ∧ c = nodeCount (ptrie_find pt.root w))) ∧
      out.Pairwise (fun a b => List.Lex (· < ·) a.1 b.1) ∧
      (out.map Prod.fst).Nodup :=
  have h : ∀ key ∈ ([[99, 97, 116], [99, 97], [99, 97]] : List (List CChar)),
      key.length < 256 := by
    intro key hk; fin_cases hk <;> simp
  ⟨h, C11_print_lists_every_word_once_in_order _ h⟩

/-! ## A failed insertion and the queries -/

theorem completions_createNode (q : List CChar) : completions ptrie_createNode q = [] := by
  have : ∀ l : List (Fin 128),
      (l.flatMap fun i => completions ptrie_node.NULL (nextPrefix q i)) = [] := by
    intro l
    induction l with
    | nil => rfl
    | cons a l ih => rw [List.flatMap_cons, ih]; rfl
  rw [ptrie_createNode, completions_node, this]
  simp

theorem printEntries_createNode (q : List CChar) : printEntries ptrie_createNode q = [] := by
  have : ∀ l : List (Fin 128),
      (l.flatMap fun i => printEntries ptrie_node.NULL (q ++ [slotChar i])) = [] := by
    intro l
    induction l with
    | nil => rfl
    | cons a l ih => rw [List.flatMap_cons, ih]; rfl
  rw [ptrie_createNode, printEntries_node, this]
  simp

theorem entries_find_childOrNew (n : ptrie_node) (p q : List CChar) :
    completions (ptrie_find (childOrNew n) p) q = completions (ptrie_find n p) q ∧
    printEntries (ptrie_find (childOrNew n) p) q = printEntries (ptrie_find n p) q := by
  cases n with
  | node children count isEndOfWord => exact ⟨rfl, rfl⟩
  | NULL =>
    have h0 : childOrNew .NULL = ptrie_createNode := rfl
    rw [h0, ptrie_find_NULL]
    cases p with
    | nil => exact ⟨completions_createNode q, printEntries_createNode q⟩
    | cons c p => rw [ptrie_find_createNode_cons]; exact ⟨rfl, rfl⟩

theorem entries_update (children : Fin 128 → ptrie_node) (count isEndOfWord : Int)
    (i : Fin 128) (m : ptrie_node)
    (hm : ∀ q, completions m q = completions (children i) q ∧
      printEntries m q = printEntries (children i) q) (q : List CChar) :
    completions (.node (Function.update children i m) count isEndOfWord) q =
        completions (.node children count isEndOfWord) q ∧
      printEntries (.node (Function.update children i m) count isEndOfWord) q =
        printEntries (.node children count isEndOfWord) q := by
  rw [completions_node, completions_node, printEntries_node, printEntries_node]
  constructor
  · congr 2
    funext j
    by_cases hj : j = i
    · subst hj; rw [Function.update_same]; exact (hm _).1
    · rw [Function.update_noteq hj]
  · congr 2
    funext j
    by_cases hj : j = i
    · subst hj; rw [Function.update_same]; exact (hm _).2
    · rw [Function.update_noteq hj]

/-- A `ptrie_add` that returns -1 leaves, under every path, the entries that the traversal
of the lookup meets and the entries that the enumeration prints. -/
theorem add_failed_entries (key : List CChar) : ∀ (n n' : ptrie_node),
    ptrie_add_loop n key = some (-1, n') → ∀ p q,
    completions (ptrie_find n' p) q = completions (ptrie_find n p) q ∧
    printEntries (ptrie_find n' p) q = printEntries (ptrie_find n p) q := by
  induction key with
  | nil =>
    intro n n' h
    cases n with
    | NULL =>
      have h0 : ptrie_add_loop .NULL [] = none := rfl
      rw [h0] at h
      cases h
    | node children count isEndOfWord =>
      rw [add_loop_nil_node] at h
      simp only [Option.some.injEq, Prod.mk.injEq] at h
      exact absurd h.1 (by decide)
  | cons c rest ih =>
    intro n n' h
    by_cases hc : accepted c
    · cases n with
      | NULL =>
        rw [add_loop_cons, if_neg (isValidChar_of_accepted hc)] at h
        simp at h
      | node children count isEndOfWord =>
        have hlt : c.val < 128 := by unfold accepted at hc; omega
        rw [add_loop_cons_accepted children count isEndOfWord rest hc] at h
        obtain ⟨r, hr, hr2⟩ := Option.map_eq_some'.mp h
        simp only [Prod.mk.injEq] at hr2
        have hr' : ptrie_add_loop (childOrNew (children ⟨c.val, hlt⟩)) rest =
            some (-1, r.2) := by
          rw [hr, ← hr2.1]
        have hchild := ih _ _ hr'
        have hm : ∀ p q, completions (ptrie_find r.2 p) q =
              completions (ptrie_find (children ⟨c.val, hlt⟩) p) q ∧
            printEntries (ptrie_find r.2 p) q =
              printEntries (ptrie_find (children ⟨c.val, hlt⟩) p) q := by
          intro p q
          have h1 := hchild p q
          have h2 := entries_find_childOrNew (children ⟨c.val, hlt⟩) p q
          exact ⟨h1.1.trans h2.1, h1.2.trans h2.2⟩
        intro p q
        rw [← hr2.2]
        cases p with
        | nil =>
          exact entries_update children count isEndOfWord ⟨c.val, hlt⟩ r.2 (fun q => hm [] q) q
        | cons d p =>
          simp only [ptrie_find, childAt_update]
          by_cases hd : d = c
          · subst hd
            rw [if_pos rfl, childAt_node_accepted children count isEndOfWord d hlt]
            exact hm p q
          · rw [if_neg hd]
            exact ⟨rfl, rfl⟩
    · rw [add_loop_cons_rejected n rest hc] at h
      simp only [Option.some.injEq, Prod.mk.injEq, true_and] at h
      intro p q
      rw [← h]
      exact ⟨rfl, rfl⟩

theorem add_loop_of_add (pt : ptrie) (key : List CChar) (r : Int) (pt' : ptrie)
    (h : ptrie_add pt key = some (r, pt')) : ptrie_add_loop pt.root key = some (r, pt'.root) := by
  unfold ptrie_add at h
  obtain ⟨q, hq, hq2⟩ := Option.map_eq_some'.mp h
  simp only [Prod.mk.injEq] at hq2
  rw [hq, ← hq2.1, ← hq2.2]

/-- A prefix of accepted characters whose path is missing is returned as it is. -/
theorem autocomplete_missing (pt : ptrie) (p : List CChar) (hroot : pt.root ≠ .NULL)
    (hp : acceptedKey p) (hfind : ptrie_find pt.root p = .NULL) :
    ptrie_autocomplete pt p = some (some p) := by
  have hmiss := (walk_accepted p pt.root hroot hp).1 hfind
  simp [ptrie_autocomplete, hmiss]

theorem foldl_bind_none_of_mem {α β : Type} (g : β → α → Option α) (l : List β) (i : β)
    (hi : i ∈ l) (hg : ∀ a, g i a = none) (init : Option α) :
    l.foldl (fun acc j => acc.bind (g j)) init = none := by
  induction l generalizing init with
  | nil => simp at hi
  | cons x l ih =>
    rw [List.foldl_cons]
    rcases List.mem_cons.mp hi with rfl | hi
    · have : init.bind (g i) = none := by
        cases init with
        | none => rfl
        | some a => exact hg a
      rw [this]
      exact foldl_bind_none g l
    · exact ih hi _

/-- A node 256 levels below the start of the buffer that has a child makes
`ptrie_printHelper` write past the 256 bytes of the buffer. -/
theorem printHelper_overflow (w : List CChar) : ∀ (n : ptrie_node) (buffer : List CChar),
    w ≠ [] → ptrie_find n w ≠ .NULL → 256 < buffer.length + w.length →
    ptrie_printHelper n buffer = none := by
  induction w with
  | nil => intro n buffer h; exact absurd rfl h
  | cons c w ih =>
    intro n buffer _ hfind hlen
    cases n with
    | NULL => rfl
    | node children count isEndOfWord =>
      have hc : c.val < 128 := by
        by_contra hc
        simp [ptrie_find, childAt, childSlot_of_ge c (by omega), ptrie_find_NULL] at hfind
      simp only [ptrie_find, childAt_node_accepted children count isEndOfWord c hc] at hfind
      have hne : children ⟨c.val, hc⟩ ≠ .NULL := by
        intro h0; rw [h0, ptrie_find_NULL] at hfind; exact hfind rfl
      have hn : ¬ (children ⟨c.val, hc⟩).isNull = true := fun h => hne ((isNull_iff _).mp h)
      rw [printHelper_node]
      apply foldl_bind_none_of_mem _ _ ⟨c.val, hc⟩ (List.mem_finRange _)
      intro out
      rw [if_neg hn]
      by_cases hb : buffer.length < 256
      · rw [if_pos hb]
        have hw : w ≠ [] := by
          intro h0
          rw [h0] at hlen
          simp only [List.length_cons, List.length_nil] at hlen
          omega
        rw [ih _ _ hw hfind (by
          simp only [List.length_append, List.length_singleton, List.length_cons] at hlen ⊢
          omega)]
        rfl
      · rw [if_neg hb]

/-- A failed insertion within the limits: `ptrie_add` of a key with a character outside
the accepted range returns -1, and afterwards `ptrie_autocomplete` returns, for every
prefix of accepted characters, the string it returned before, provided the paths of the
trie and the accepted characters at the head of the key number at most 127; and
`ptrie_print` emits the entries it emitted before, provided these number at most 255. -/
theorem failed_insertion_within_limits (children : Fin 128 → ptrie_node)
    (count isEndOfWord : Int) (key p : List CChar) (hfail : ¬ acceptedKey key) :
    ∃ pt', ptrie_add ⟨.node children count isEndOfWord⟩ key = some (-1, pt') ∧
      ((ptrie_node.node children count isEndOfWord).height ≤ 127 →
        (acceptedPrefix key).length ≤ 127 → acceptedKey p →
        ptrie_autocomplete pt' p = ptrie_autocomplete ⟨.node children count isEndOfWord⟩ p ∧
        ∃ r, ptrie_autocomplete ⟨.node children count isEndOfWord⟩ p = some (some r)) ∧
      ((ptrie_node.node children count isEndOfWord).height ≤ 255 →
        (acceptedPrefix key).length ≤ 255 →
        ptrie_print pt' = ptrie_print ⟨.node children count isEndOfWord⟩ ∧
        ∃ out, ptrie_print ⟨.node children count isEndOfWord⟩ = some out) := by
  have hroot : (⟨.node children count isEndOfWord⟩ : ptrie).root ≠ .NULL := by simp
  obtain ⟨pt', h, hroot', hn, -, -⟩ := add_spec ⟨.node children count isEndOfWord⟩ hroot key
  rw [if_neg hfail] at h
  have hent := add_failed_entries key _ _ (add_loop_of_add _ _ _ _ h)
  have hpaths : ∀ d, (ptrie_node.node children count isEndOfWord).height ≤ d →
      (acceptedPrefix key).length ≤ d → ∀ w, ptrie_find pt'.root w ≠ .NULL → w.length ≤ d := by
    intro d hd hk w hw
    by_cases hold : ptrie_find (.node children count isEndOfWord) w = .NULL
    · by_cases hpre : w <+: acceptedPrefix key
      · exact le_trans hpre.length_le hk
      · exact absurd ((hn w).mpr ⟨hold, hpre⟩) hw
    · exact (height_le_iff _ _).mp hd w hold
  refine ⟨pt', h, ?_, ?_⟩
  · intro hd hk hp
    have h1 := autocomplete_eq_foldl ⟨.node children count isEndOfWord⟩ p hroot hp
      (fun s hs => (height_le_iff _ _).mp hd _ hs)
    have h2 := autocomplete_eq_foldl pt' p hroot' hp (fun s hs => hpaths 127 hd hk _ hs)
    rw [(hent p p).1] at h2
    exact ⟨h2.trans h1.symm, _, h1⟩
  · intro hd hk
    have h1 := printHelper_eq_entries (.node children count isEndOfWord) [] hroot
      (fun w hw => by simpa using (height_le_iff _ _).mp hd w hw)
    have h2 := printHelper_eq_entries pt'.root [] hroot'
      (fun w hw => by simpa using hpaths 255 hd hk w hw)
    have h3 := (hent [] []).2
    simp only [ptrie_find] at h3
    rw [h3] at h2
    exact ⟨h2.trans h1.symm, _, h1⟩

set_option maxRecDepth 1000000 in
/-- C19 fails on the code, on a new trie. After the failed `ptrie_add` of "a" followed by
the character of code 1, the lookup of that same string returns `NULL`, where it returned
the string before. After the failed `ptrie_add` of 200 letters followed by the character
of code 1, the lookup of the 200 letters copies 201 bytes into `char prefix[128]`, where
it returned the prefix before. After the failed `ptrie_add` of 300 letters followed by
the character of code 1, `ptrie_print` writes past its 256 bytes, where it printed nothing
before. -/
theorem C19_failed_insertion_is_observed :
    (∃ pt', ptrie_add ptrie_allocate [97, 1] = some (-1, pt') ∧
      ptrie_autocomplete ptrie_allocate [97, 1] = some (some [97, 1]) ∧
      ptrie_autocomplete pt' [97, 1] = some none) ∧
    (∃ pt', ptrie_add ptrie_allocate (List.replicate 200 (97 : CChar) ++ [1]) =
        some (-1, pt') ∧
      acceptedKey (List.replicate 200 (97 : CChar)) ∧
      ptrie_autocomplete ptrie_allocate (List.replicate 200 (97 : CChar)) =
        some (some (List.replicate 200 (97 : CChar))) ∧
      ptrie_autocomplete pt' (List.replicate 200 (97 : CChar)) = none) ∧
    (∃ pt', ptrie_add ptrie_allocate (List.replicate 300 (97 : CChar) ++ [1]) =
        some (-1, pt') ∧
      ptrie_print ptrie_allocate = some [] ∧ ptrie_print pt' = none) := by
  have hroot : ptrie_allocate.root ≠ .NULL := by simp [ptrie_allocate, ptrie_createNode]
  have hrej : ¬ accepted (1 : CChar) := by decide
  refine ⟨?_, ?_, ?_⟩
  · have hkey : ¬ acceptedKey ([97, 1] : List CChar) := by decide
    obtain ⟨pt', h, -⟩ := add_spec ptrie_allocate hroot [97, 1]
    rw [if_neg hkey] at h
    have hd : ((ptrie_add ptrie_allocate [97, 1]).bind
        fun q => ptrie_autocomplete q.2 [97, 1]) = some none := by decide
    rw [h, Option.some_bind] at hd
    have hbefore : ptrie_autocomplete ptrie_allocate [97, 1] = some (some [97, 1]) := by
      decide
    exact ⟨pt', h, hbefore, hd⟩
  · have hacc : acceptedKey (List.replicate 200 (97 : CChar)) :=
      acceptedKey_replicate 200 97 (by decide)
    have hkey : ¬ acceptedKey (List.replicate 200 (97 : CChar) ++ [1]) :=
      fun h => hrej (h 1 (List.mem_append_right _ (List.mem_singleton.mpr rfl)))
    obtain ⟨pt', h, hroot', hn, -, -⟩ := add_spec ptrie_allocate hroot
      (List.replicate 200 (97 : CChar) ++ [1])
    rw [if_neg hkey] at h
    rw [acceptedPrefix_append _ _ _ hacc hrej] at hn
    refine ⟨pt', h, hacc, autocomplete_missing _ _ hroot hacc ?_,
      autocomplete_overflow pt' _ hroot' hacc ?_ (by rw [List.length_replicate]; omega)⟩
    · exact ptrie_find_createNode_cons 97 (List.replicate 199 97)
    · intro h0
      exact ((hn _).mp h0).2 (List.prefix_refl _)
  · have hacc : acceptedKey (List.replicate 300 (97 : CChar)) :=
      acceptedKey_replicate 300 97 (by decide)
    have hkey : ¬ acceptedKey (List.replicate 300 (97 : CChar) ++ [1]) :=
      fun h => hrej (h 1 (List.mem_append_right _ (List.mem_singleton.mpr rfl)))
    obtain ⟨pt', h, hroot', hn, -, -⟩ := add_spec ptrie_allocate hroot
      (List.replicate 300 (97 : CChar) ++ [1])
    rw [if_neg hkey] at h
    rw [acceptedPrefix_append _ _ _ hacc hrej] at hn
    refine ⟨pt', h, ?_, ?_⟩
    · have := printHelper_eq_entries ptrie_createNode [] hroot (by
        intro w hw
        cases w with
        | nil => simp
        | cons c w => exact absurd (ptrie_find_createNode_cons c w) hw)
      rw [printEntries_createNode] at this
      exact this
    · apply printHelper_overflow (List.replicate 300 (97 : CChar))
      · intro h0
        have := congrArg List.length h0
        rw [List.length_replicate] at this
        cases this
      · intro h0
        exact ((hn _).mp h0).2 (List.prefix_refl _)
      · rw [List.length_replicate]
        decide

end Ptrie
